import Mathlib

/-!
# Endpoint pool of `client_pool`: a shallow embedding

The Go package `client_pool` is embedded as pure functions over an explicit world state;
`hex.go` of the same package and `convert.go` of the package `toolkit` are embedded as pure
functions.

* A Go `error` value is a `GoError`; a possibly-nil `error` is an `Option GoError`.
* A `*Client` is identified with its position in `pool.clients` (the slice is never resized,
  and every element is a distinct pointer made by `NewClient`).
* `time.Time` is a natural number of nanoseconds; `time.Now()` reads `World.now`,
  `time.Sleep d` adds `d` to it, and an endpoint query adds the latency the node reports.
* The remote nodes are a `Node` oracle: what a query answers may depend on the number of
  queries issued so far, on the endpoint and on the query.  Every query is appended to
  `World.calls`, so that "which endpoint was asked what" is observable.
* A Go loop without a bound (`for { ... }`) takes a fuel argument; the result `none` means
  that the function has not returned (fuel exhausted, or an index-out-of-range panic, which
  cannot happen when `pool.counter < len(pool.clients)`).
* A Go `string` that is valid UTF-8 is a `String`, a list of Unicode scalar values; an
  `int64` is an integer between `-2^63` and `2^63 - 1`.
* The functions of the Go standard library the code calls (`strings.Contains`,
  `strings.Replace`, `strconv.FormatInt`, `strconv.ParseInt`, `json.Marshal` and
  `json.Unmarshal` on a string) are embedded from the library, at the arguments the code
  calls them with.
-/

namespace Toolkit

/-! ## Errors and the failure classifier (`error.go`) -/

/-- Go error values, by the dynamic types the classifier tells apart:
`rpc.HTTPError` (with its `StatusCode`), a value implementing `rpc.Error`
(with its `ErrorCode()`), any other error, and the result of `errors.Wrap`. -/
inductive GoError where
  | httpError (statusCode : Int) (text : String)
  | rpcError (errorCode : Int) (text : String)
  | plain (text : String)
  | wrapped (cause : GoError) (message : String)
  deriving DecidableEq, Repr

/-- The method `Error()` of an error value; `errors.Wrap` prints `message: cause`. -/
def GoError.Error : GoError → String
  | .httpError _ text => text
  | .rpcError _ text => text
  | .plain text => text
  | .wrapped cause message => message ++ ": " ++ cause.Error

/-- The Go call `errors.Wrap(err, message)`: nil stays nil. -/
def errorsWrap (err : Option GoError) (message : String) : Option GoError :=
  match err with
  | none => none
  | some e => some (GoError.wrapped e message)

/-- Whether the characters `sub` open the characters `s`. -/
def startsWith : List Char → List Char → Bool
  | _, [] => true
  | [], _ :: _ => false
  | c :: cs, p :: ps => c == p && startsWith cs ps

/-- Whether the characters `sub` occur contiguously in `s`. -/
def containsChars : List Char → List Char → Bool
  | [], sub => startsWith [] sub
  | c :: cs, sub => startsWith (c :: cs) sub || containsChars cs sub

/-- The Go call `strings.Contains(s, substr)`. -/
def stringsContains (s substr : String) : Bool :=
  containsChars s.toList substr.toList

/-- The function `isLogTooLargeError` of `error.go`. -/
def isLogTooLargeError (err : Option GoError) : Bool :=
  match err with
  | none => false
  | some e =>
    let okRpc : Bool :=
      match e with
      | .rpcError code _ => code == -32005 && stringsContains e.Error "10000"
      | _ => false
    if okRpc || stringsContains e.Error "limit exceeded" ||
        stringsContains e.Error "range too large" then true
    else false

/-- The function `isRateLimit` of `error.go` (only ever called on a non-nil error). -/
def isRateLimit (e : GoError) : Bool :=
  let okHttp : Bool :=
    match e with
    | .httpError statusCode _ => statusCode == 429 || statusCode == -32429
    | _ => false
  if okHttp ||
      stringsContains e.Error "Exceeded the quota usage" ||
      stringsContains e.Error "limit exceeded" ||
      stringsContains e.Error "exceeded limit" ||
      stringsContains e.Error "Unable to perform request" ||
      stringsContains e.Error "order a dedicated full node" then true
  else false

/-! ## Endpoint (`client.go`) -/

/-- The Go constant `time.Second`, in nanoseconds. -/
def Second : Nat := 1000000000

/-- The Go constant `time.Minute`, in nanoseconds. -/
def Minute : Nat := 60 * Second

/-- The health fields and the identity of `Client`. -/
structure Client where
  endpoint : String
  lastErr : Option GoError
  availableAt : Nat
  deriving DecidableEq, Repr

/-- The method `Client.IsAvailable`, called when the clock reads `now`:
the boolean returned and the client afterwards. -/
def Client.IsAvailable (now : Nat) (c : Client) : Bool × Client :=
  if c.lastErr = none ∨ now > c.availableAt then
    (true, { c with lastErr := none })
  else
    (false, c)

/-- The method `Client.MarkError`, called when the clock reads `now`. -/
def Client.MarkError (now : Nat) (err : Option GoError) (c : Client) : Client :=
  { c with lastErr := err, availableAt := now + 15 * Second }

/-! ## Pool (`client_pool.go`) -/

/-- The fields `clients` and `counter` of `ClientPool`. -/
structure ClientPool where
  clients : List Client
  counter : Nat
  deriving DecidableEq, Repr

/-- The fields of `types.Log` that identify an event occurrence. -/
structure Log where
  Address : Nat
  BlockNumber : Nat
  TxHash : Nat
  TxIndex : Nat
  BlockHash : Nat
  Index : Nat
  Removed : Bool
  deriving DecidableEq, Repr

/-- The fields of `ethereum.FilterQuery`. -/
structure FilterQuery where
  FromBlock : Option Int
  ToBlock : Option Int
  Addresses : List Nat
  Topics : List (List Nat)
  deriving DecidableEq, Repr

/-- The fields of `types.Receipt` that matter to a caller. -/
structure Receipt where
  TxHash : Nat
  Status : Nat
  BlockNumber : Nat
  deriving DecidableEq, Repr

/-- One query issued to an endpoint (a position in `pool.clients`). -/
inductive Call where
  | filterLogs (client : Nat) (query : FilterQuery)
  | transactionReceipt (client : Nat) (txHash : Nat)
  deriving DecidableEq, Repr

/-- The remote nodes: the answer to the `n`-th query overall (counting from 0),
sent to the endpoint at position `client`, and how long that query takes. -/
structure Node where
  FilterLogs : Nat → Nat → FilterQuery → List Log × Option GoError
  TransactionReceipt : Nat → Nat → Nat → Option Receipt × Option GoError
  latency : Nat → Nat

/-- The state a pool operation runs in: the pool, the clock, and the queries issued so far. -/
structure World where
  pool : ClientPool
  now : Nat
  calls : List Call
  deriving DecidableEq, Repr

/-- The inner `for i := 0; i < len(pool.clients); i++` loop of `GetClient` with `steps`
iterations left: the endpoint found available (if any) and the pool afterwards. -/
def GetClient.scan (now : Nat) : Nat → ClientPool → Option (Option Nat × ClientPool)
  | 0, pool => some (none, pool)
  | steps + 1, pool =>
    match pool.clients[pool.counter]? with
    | none => none
    | some client =>
      let idx := pool.counter
      let r := client.IsAvailable now
      let pool1 : ClientPool :=
        { clients := pool.clients.set idx r.2,
          counter := (pool.counter + 1) % pool.clients.length }
      if r.1 then some (some idx, pool1) else GetClient.scan now steps pool1

/-- The method `ClientPool.GetClient`: scan once around the pool; when no endpoint is
available sleep 15 seconds and scan again. -/
def GetClient : Nat → World → Option (Nat × World)
  | 0, _ => none
  | fuel + 1, w =>
    match GetClient.scan w.now w.pool.clients.length w.pool with
    | none => none
    | some (some idx, pool1) => some (idx, { w with pool := pool1 })
    | some (none, pool1) =>
      GetClient fuel { w with pool := pool1, now := w.now + 15 * Second }

/-- The method `ClientPool.countAvailableClients`: the count, and the clients after
`IsAvailable` has been called on each. -/
def countAvailableClients (now : Nat) : List Client → Nat × List Client
  | [] => (0, [])
  | client :: rest =>
    let r := client.IsAvailable now
    let s := countAvailableClients now rest
    ((if r.1 then 1 else 0) + s.1, r.2 :: s.2)

/-- The first loop of `GetClients`: wait, a minute at a time, until at least `numClients`
endpoints are available. -/
def GetClients.await (numClients : Int) : Nat → World → Option World
  | 0, _ => none
  | fuel + 1, w =>
    let s := countAvailableClients w.now w.pool.clients
    let w1 : World := { w with pool := { w.pool with clients := s.2 } }
    if (s.1 : Int) < numClients then
      GetClients.await numClients fuel { w1 with now := w1.now + Minute }
    else some w1

/-- The second loop of `GetClients`: `for len(clients) < numClients`, collecting available
endpoints from the rotation cursor on. -/
def GetClients.collect (now : Nat) (numClients : Int) :
    Nat → ClientPool → List Nat → Option (List Nat × ClientPool)
  | 0, _, _ => none
  | fuel + 1, pool, clients =>
    if (clients.length : Int) < numClients then
      match pool.clients[pool.counter]? with
      | none => none
      | some client =>
        let idx := pool.counter
        let r := client.IsAvailable now
        let pool1 : ClientPool :=
          { clients := pool.clients.set idx r.2,
            counter := (pool.counter + 1) % pool.clients.length }
        GetClients.collect now numClients fuel pool1
          (if r.1 then clients ++ [idx] else clients)
    else some (clients, pool)

/-- The method `ClientPool.GetClients`. -/
def GetClients (fuel : Nat) (w : World) (numClients : Int) :
    Option ((List Nat × Option GoError) × World) :=
  if numClients > (w.pool.clients.length : Int) then
    some (([], some (GoError.plain
      ("numClients must be less than client pool size: " ++
        toString w.pool.clients.length))), w)
  else
    match GetClients.await numClients fuel w with
    | none => none
    | some w1 =>
      match GetClients.collect w1.now numClients fuel w1.pool [] with
      | none => none
      | some (clients, pool1) => some ((clients, none), { w1 with pool := pool1 })

/-- The endpoint URL of the client at position `client`. -/
def ClientPool.endpointOf (pool : ClientPool) (client : Nat) : String :=
  match pool.clients[client]? with
  | some c => c.endpoint
  | none => ""

/-- The call `client.MarkError(err)` on the client at position `client`. -/
def ClientPool.markError (pool : ClientPool) (now : Nat) (client : Nat)
    (err : Option GoError) : ClientPool :=
  match pool.clients[client]? with
  | some c => { pool with clients := pool.clients.set client (c.MarkError now err) }
  | none => pool

/-- The Go conversion `int64(x)` of a `uint64`. -/
def toInt64 (x : Nat) : Int :=
  if x % 2 ^ 64 < 2 ^ 63 then ((x % 2 ^ 64 : Nat) : Int)
  else ((x % 2 ^ 64 : Nat) : Int) - 2 ^ 64

/-- The Go expression `fromBlock + (toBlock-fromBlock)/2` over `uint64`. -/
def midBlock (fromBlock toBlock : Nat) : Nat :=
  (fromBlock + ((toBlock + 2 ^ 64 - fromBlock) % 2 ^ 64) / 2) % 2 ^ 64

/-- The world after the `n`-th query has been issued and answered. -/
def World.afterCall (node : Node) (w : World) (call : Call) : World :=
  { w with now := w.now + node.latency w.calls.length, calls := w.calls ++ [call] }

/-- The method `ClientPool.getLogs`.  `specificClient` is the variadic parameter of the
source; the result pairs the logs with the (possibly nil) error. -/
def getLogs (node : Node) : Nat → World → FilterQuery → Nat → Nat → List Nat →
    Option ((List Log × Option GoError) × World)
  | 0, _, _, _, _, _ => none
  | fuel + 1, w, filterQuery, fromBlock, toBlock, specificClient =>
    match GetClient (fuel + 1) w with
    | none => none
    | some (client, w1) =>
      if fromBlock > toBlock then some (([], none), w1)
      else
        let filterQuery1 : FilterQuery :=
          { filterQuery with FromBlock := some (toInt64 fromBlock),
                             ToBlock := some (toInt64 toBlock) }
        let reply := node.FilterLogs w1.calls.length client filterQuery1
        let w2 := w1.afterCall node (Call.filterLogs client filterQuery1)
        let logs := reply.1
        let err := reply.2
        if err ≠ none then
          getLogs node fuel { w2 with pool := w2.pool.markError w2.now client err }
            filterQuery1 fromBlock toBlock specificClient
        else if isLogTooLargeError err && decide (toBlock > fromBlock) then
          let midBlockNumber := midBlock fromBlock toBlock
          match getLogs node fuel w2 filterQuery1 fromBlock midBlockNumber [] with
          | none => none
          | some ((log1, err1), w3) =>
            if err1 ≠ none then some (([], err1), w3)
            else
              match getLogs node fuel w3 filterQuery1
                  ((midBlockNumber + 1) % 2 ^ 64) toBlock [] with
              | none => none
              | some ((log2, err2), w4) =>
                if err2 ≠ none then some (([], err2), w4)
                else some ((log1 ++ log2, none), w4)
        else
          some ((logs, errorsWrap err ("client endpoint: " ++ w2.pool.endpointOf client)), w2)

/-- The method `ClientPool.GetTransactionReceipt`. -/
def GetTransactionReceipt (node : Node) : Nat → World → Nat →
    Option ((Option Receipt × Option GoError) × World)
  | 0, _, _ => none
  | fuel + 1, w, txHash =>
    match GetClient (fuel + 1) w with
    | none => none
    | some (client, w1) =>
      let reply := node.TransactionReceipt w1.calls.length client txHash
      let w2 := w1.afterCall node (Call.transactionReceipt client txHash)
      match reply.2 with
      | some err =>
        if isRateLimit err then
          GetTransactionReceipt node fuel
            { w2 with pool := w2.pool.markError w2.now client (some err) } txHash
        else some ((none, some err), w2)
      | none => some ((reply.1, none), w2)

/-- The method `ClientPool.compareLogs`. -/
def compareLogs (log1 log2 : Log) : Bool :=
  log1.TxHash == log2.TxHash && log1.Index == log2.Index

/-- The `for i := 0; i < len(logs1); i++` loop of `compareListsLogs`, at index `i` with
`steps` iterations left. -/
def compareListsLogs.loop (logs1 logs2 : List Log) : Nat → Nat → Bool
  | 0, _ => true
  | steps + 1, i =>
    match logs1[i]?, logs2[i]? with
    | some a, some b =>
      if !compareLogs a b then false else compareListsLogs.loop logs1 logs2 steps (i + 1)
    | _, _ => false

/-- The method `ClientPool.compareListsLogs`. -/
def compareListsLogs (logs1 logs2 : List Log) : Bool :=
  if logs1.length ≠ logs2.length then false
  else compareListsLogs.loop logs1 logs2 logs1.length 0

/-- The `for i := 0; i < numProof; i++` loop of `GetLogs` that sets `consistent`, at index
`i` with `steps` iterations left. -/
def GetLogs.consistentLoop (numProof : Int) (results : List (List Log)) :
    Nat → Nat → Bool → Bool
  | 0, _, consistent => consistent
  | steps + 1, i, consistent =>
    if (i : Int) < numProof - 1 then
      let c := compareListsLogs (results.getD i []) (results.getD (i + 1) [])
      if !c then c else GetLogs.consistentLoop numProof results steps (i + 1) c
    else GetLogs.consistentLoop numProof results steps (i + 1) consistent

/-- The part of `ClientPool.GetLogs` after `wg.Wait()`, for `numProof > 1`: `results` holds
the `numProof` replica results (`make([][]types.Log, numProof)`) and `err` the error a
replica fetch has left, if any. -/
def GetLogs.afterWait (results : List (List Log)) (err : Option GoError) :
    List Log × Option GoError :=
  let numProof : Int := results.length
  if err ≠ none then ([], err)
  else
    let consistent := GetLogs.consistentLoop numProof results results.length 0 true
    if consistent then (results.getD 0 [], none)
    else ([], some (GoError.plain "Consistency error"))

/-- N consecutive `GetClient` calls: the endpoints returned, in call order. -/
def GetClientTimes (fuel : Nat) : Nat → World → Option (List Nat × World)
  | 0, w => some ([], w)
  | n + 1, w =>
    match GetClient fuel w with
    | none => none
    | some (client, w1) =>
      match GetClientTimes fuel n w1 with
      | none => none
      | some (rest, w2) => some (client :: rest, w2)

/-! ## Well-formedness and availability -/

/-- The rotation cursor indexes a position of the pool. -/
def ClientPool.WF (pool : ClientPool) : Prop :=
  pool.counter < pool.clients.length

instance (pool : ClientPool) : Decidable pool.WF := by
  unfold ClientPool.WF; infer_instance

/-- What `IsAvailable` would answer for `c` when the clock reads `now`. -/
def Client.available (now : Nat) (c : Client) : Bool :=
  (c.IsAvailable now).1

/-! ## Sample states -/

/-- A healthy endpoint. -/
def mkClient (endpoint : String) : Client :=
  { endpoint := endpoint, lastErr := none, availableAt := 0 }

/-- A log with the given transaction hash and index, other fields zero. -/
def mkLog (txHash index : Nat) : Log :=
  { Address := 0, BlockNumber := 0, TxHash := txHash, TxIndex := 0, BlockHash := 0,
    Index := index, Removed := false }

/-- An empty filter. -/
def noFilter : FilterQuery :=
  { FromBlock := none, ToBlock := none, Addresses := [], Topics := [] }

/-! ## Specification-level notions and sample states -/

/-- Two result lists agree: same length and, at every index, the same transaction hash and
the same log index. -/
def LogsAgree (a b : List Log) : Prop :=
  a.length = b.length ∧
    ∀ j (h1 : j < a.length) (h2 : j < b.length),
      (a.get ⟨j, h1⟩).TxHash = (b.get ⟨j, h2⟩).TxHash ∧
      (a.get ⟨j, h1⟩).Index = (b.get ⟨j, h2⟩).Index

/-- Every endpoint of the pool is available when the clock reads `now`. -/
def ClientPool.AllAvailable (now : Nat) (pool : ClientPool) : Prop :=
  ∀ x ∈ pool.clients, x.available now = true

/-- The pool after the rotating scan has taken the available endpoint under the cursor. -/
def ClientPool.advance (pool : ClientPool) (client : Client) : ClientPool :=
  { clients := pool.clients.set pool.counter { client with lastErr := none },
    counter := (pool.counter + 1) % pool.clients.length }

/-- Whether the endpoint at position `i` of the pool is available when the clock reads
`now` (false when there is no such position). -/
def ClientPool.availableAt (now : Nat) (pool : ClientPool) (i : Nat) : Bool :=
  match pool.clients[i]? with
  | some c => c.available now
  | none => false

/-- The positions visited by `r` steps of the rotating scan that starts at `cur` in a pool
of `size` endpoints. -/
def rotation (size cur r : Nat) : List Nat :=
  (List.range r).map (fun i => (cur + i) % size)

/-- The pool after one step of the rotating scan over the endpoint `client` under the
cursor. -/
def ClientPool.step (now : Nat) (pool : ClientPool) (client : Client) : ClientPool :=
  { clients := pool.clients.set pool.counter (client.IsAvailable now).2,
    counter := (pool.counter + 1) % pool.clients.length }

/-- A pool of two healthy endpoints, cursor at the first. -/
def samplePool2 : World :=
  { pool := { clients := [mkClient "http://a", mkClient "http://b"], counter := 0 },
    now := 0, calls := [] }

/-- A pool of three healthy endpoints, cursor at the first. -/
def samplePool3 : World :=
  { pool :=
      { clients := [mkClient "http://a", mkClient "http://b", mkClient "http://c"],
        counter := 0 },
    now := 0, calls := [] }

/-- The logs of the blocks `fromBlock .. fromBlock + count - 1`, one per block. -/
def blockLogs (fromBlock : Nat) : Nat → List Log
  | 0 => []
  | count + 1 =>
    { Address := 0, BlockNumber := fromBlock, TxHash := fromBlock, TxIndex := 0,
      BlockHash := fromBlock, Index := 0, Removed := false } :: blockLogs (fromBlock + 1) count

/-- Nodes that serve at most two blocks per query and answer a wider query with the error
`query range too large`. -/
def sizeLimitedNode : Node :=
  { FilterLogs := fun _ _ q =>
      match q.FromBlock, q.ToBlock with
      | some a, some b =>
        if b - a + 1 > 2 then ([], some (GoError.plain "query range too large"))
        else (blockLogs a.toNat (b - a + 1).toNat, none)
      | _, _ => ([], none),
    TransactionReceipt := fun _ _ _ => (none, none),
    latency := fun _ => 0 }

/-- Nodes whose first query fails with `execution reverted` and whose later queries
succeed.  Receipt queries: the first is rate limited, the second fails with `not found`. -/
def flakyNode : Node :=
  { FilterLogs := fun n _ _ =>
      if n = 0 then ([], some (GoError.plain "execution reverted"))
      else ([mkLog 7 0], none),
    TransactionReceipt := fun n _ txHash =>
      if n = 0 then (none, some (GoError.httpError 429 "429 Too Many Requests"))
      else if n = 1 then (none, some (GoError.plain "not found"))
      else (some { TxHash := txHash, Status := 1, BlockNumber := 5 }, none),
    latency := fun _ => 1 }

/-! ## Hexadecimal conversion (`hex.go`) -/

/-- The table `digits` of `strconv`. -/
def strconvDigit (d : Nat) : Char :=
  "0123456789abcdefghijklmnopqrstuvwxyz".toList.getD d '0'

/-- The digit loop of `strconv.formatBits` for base 16, writing from the right:
`for u >= b { i--; a[i] = digits[u&m]; u >>= shift }` and then the leading digit.
`steps` bounds the loop; the buffer of 65 bytes is never exceeded by a `uint64`. -/
def formatBits.loop : Nat → Nat → List Char → List Char
  | 0, u, a => strconvDigit u :: a
  | steps + 1, u, a =>
    if u ≥ 16 then formatBits.loop steps (u / 16) (strconvDigit (u % 16) :: a)
    else strconvDigit u :: a

/-- The Go call `strconv.FormatInt(i, 16)` on an `int64`: `formatBits(nil, uint64(i), 16,
i < 0, false)`. -/
def FormatIntHex (i : Int) : String :=
  let u : Nat := (i % 2 ^ 64).toNat
  let neg : Bool := decide (i < 0)
  let u1 : Nat := if neg then (2 ^ 64 - u) % 2 ^ 64 else u
  let a := formatBits.loop 64 u1 []
  String.mk (if neg then '-' :: a else a)

/-- The function `DecimalToHex` of `hex.go`. -/
def DecimalToHex (number : Int) : String :=
  "0x" ++ FormatIntHex number

/-- The replacement loop of `strings.Replace(s, old, new, -1)` for a non-empty `old`:
occurrences are replaced from the left and do not overlap; `skip` counts the characters of
the occurrence just replaced that are still to be passed over. -/
def stringsReplaceAll.go (old new : List Char) : Nat → List Char → List Char
  | _, [] => []
  | skip + 1, _ :: rest => stringsReplaceAll.go old new skip rest
  | 0, c :: rest =>
    if startsWith (c :: rest) old then new ++ stringsReplaceAll.go old new (old.length - 1) rest
    else c :: stringsReplaceAll.go old new 0 rest

/-- The Go call `strings.Replace(s, old, new, -1)` for a non-empty `old`. -/
def stringsReplaceAll (s old new : String) : String :=
  if old = new then s
  else String.mk (stringsReplaceAll.go old.toList new.toList 0 s.toList)

/-- The function `hexaNumberToString` of `hex.go`. -/
def hexaNumberToString (hexaString : String) : String :=
  let numberStr := stringsReplaceAll hexaString "0x" ""
  stringsReplaceAll numberStr "0X" ""

/-- The two errors a `*strconv.NumError` can carry. -/
inductive NumErrKind where
  | ErrSyntax
  | ErrRange
  deriving DecidableEq, Repr

/-- The fields of `strconv.NumError`. -/
structure NumError where
  Func : String
  Num : String
  Err : NumErrKind
  deriving DecidableEq, Repr

/-- The value of a digit byte in `strconv.ParseUint`: `c - 48` for a decimal digit,
`lower(c) - 97 + 10` for a letter, nothing for any other byte. -/
def digitValue (c : Char) : Option Nat :=
  let b := c.toNat
  if 48 ≤ b ∧ b ≤ 57 then some (b - 48)
  else if 97 ≤ b ∧ b ≤ 122 then some (b - 97 + 10)
  else if 65 ≤ b ∧ b ≤ 90 then some (b + 32 - 97 + 10)
  else none

/-- The digit loop of `strconv.ParseUint(s, 16, 64)` with the accumulator `n`: the value
returned and the error kind, if any. -/
def ParseUintHex64.loop : Nat → List Char → Nat × Option NumErrKind
  | n, [] => (n, none)
  | n, c :: rest =>
    match digitValue c with
    | none => (0, some NumErrKind.ErrSyntax)
    | some d =>
      if d ≥ 16 then (0, some NumErrKind.ErrSyntax)
      else if n ≥ (2 ^ 64 - 1) / 16 + 1 then (2 ^ 64 - 1, some NumErrKind.ErrRange)
      else
        let n0 := (n * 16) % 2 ^ 64
        let n1 := (n0 + d) % 2 ^ 64
        if n1 < n0 ∨ n1 > 2 ^ 64 - 1 then (2 ^ 64 - 1, some NumErrKind.ErrRange)
        else ParseUintHex64.loop n1 rest

/-- The Go call `strconv.ParseUint(s, 16, 64)` on the characters of `s`. -/
def ParseUintHex64 (s : List Char) : Nat × Option NumErrKind :=
  if s = [] then (0, some NumErrKind.ErrSyntax)
  else ParseUintHex64.loop 0 s

/-- The Go call `strconv.ParseInt(s, 16, 64)`. -/
def ParseIntHex64 (s : String) : Int × Option NumError :=
  let s0 := s
  match s.toList with
  | [] => (0, some { Func := "ParseInt", Num := s0, Err := NumErrKind.ErrSyntax })
  | c :: rest =>
    let neg : Bool := c = '-'
    let digits : List Char := if c = '+' ∨ c = '-' then rest else c :: rest
    let r := ParseUintHex64 digits
    if r.2 = some NumErrKind.ErrSyntax then
      (0, some { Func := "ParseInt", Num := s0, Err := NumErrKind.ErrSyntax })
    else
      let un := r.1
      let cutoff : Nat := 2 ^ 63
      if neg = false ∧ un ≥ cutoff then
        ((cutoff : Int) - 1, some { Func := "ParseInt", Num := s0, Err := NumErrKind.ErrRange })
      else if neg = true ∧ un > cutoff then
        (-(cutoff : Int), some { Func := "ParseInt", Num := s0, Err := NumErrKind.ErrRange })
      else
        let n := toInt64 un
        (if neg then toInt64 ((-n) % 2 ^ 64).toNat else n, none)

/-- The function `HexToInt` of `hex.go`. -/
def HexToInt (hex : String) : Int × Option NumError :=
  ParseIntHex64 (hexaNumberToString hex)

/-! ## JSON conversion (`convert.go`) -/

/-- The table `htmlSafeSet` of `encoding/json`, on a byte below `utf8.RuneSelf`: every
printable ASCII byte but the double quote, `&`, `<`, `>` and the backslash. -/
def htmlSafeSet (b : Nat) : Bool :=
  decide (32 ≤ b ∧ b < 128 ∧ b ≠ 34 ∧ b ≠ 38 ∧ b ≠ 60 ∧ b ≠ 62 ∧ b ≠ 92)

/-- The table `hex` of `encoding/json`. -/
def jsonHex (d : Nat) : Char :=
  "0123456789abcdef".toList.getD d '0'

/-- What `appendString` of `encoding/json` (called with `escapeHTML`, as `json.Marshal`
does) writes for one character of a valid UTF-8 string.  `shortEscapes` tells whether the
toolchain writes a backspace and a form feed as `\b` and `\f` (Go 1.22 and later) or as
`\u0008` and `\u000c` (before). -/
def appendString.char (shortEscapes : Bool) (c : Char) : List Char :=
  let b := c.toNat
  if b < 128 then
    if htmlSafeSet b then [c]
    else if b = 92 ∨ b = 34 then [Char.ofNat 92, c]
    else if b = 8 ∧ shortEscapes = true then [Char.ofNat 92, 'b']
    else if b = 12 ∧ shortEscapes = true then [Char.ofNat 92, 'f']
    else if b = 10 then [Char.ofNat 92, 'n']
    else if b = 13 then [Char.ofNat 92, 'r']
    else if b = 9 then [Char.ofNat 92, 't']
    else [Char.ofNat 92, 'u', '0', '0', jsonHex (b / 16), jsonHex (b % 16)]
  else if b = 8232 ∨ b = 8233 then [Char.ofNat 92, 'u', '2', '0', '2', jsonHex (b % 16)]
  else [c]

/-- The function `appendString` of `encoding/json` on a valid UTF-8 string: the quoted and
escaped JSON string literal. -/
def appendString (shortEscapes : Bool) (src : List Char) : List Char :=
  Char.ofNat 34 :: (src.flatMap (appendString.char shortEscapes) ++ [Char.ofNat 34])

/-- The Go call `json.Marshal(data)` on a string: never an error. -/
def jsonMarshalString (shortEscapes : Bool) (data : String) : List Char × Option GoError :=
  (appendString shortEscapes data.toList, none)

/-- The function `isSpace` of the JSON scanner. -/
def jsonIsSpace (c : Char) : Bool :=
  decide (c.toNat = 32 ∨ c.toNat = 9 ∨ c.toNat = 13 ∨ c.toNat = 10)

/-- The value of a hexadecimal digit byte, as `getu4` reads it. -/
def hexByteValue (c : Char) : Option Nat :=
  let b := c.toNat
  if 48 ≤ b ∧ b ≤ 57 then some (b - 48)
  else if 97 ≤ b ∧ b ≤ 102 then some (b - 97 + 10)
  else if 65 ≤ b ∧ b ≤ 70 then some (b - 65 + 10)
  else none

/-- The function `getu4` of `encoding/json` on the bytes from a backslash on: the code unit
of a `\\uXXXX` escape, or nothing (the `-1` of the source). -/
def getu4 (s : List Char) : Option Nat :=
  match s with
  | b :: u :: h1 :: h2 :: h3 :: h4 :: _ =>
    if b.toNat = 92 ∧ u.toNat = 117 then
      match hexByteValue h1, hexByteValue h2, hexByteValue h3, hexByteValue h4 with
      | some x1, some x2, some x3, some x4 => some (((x1 * 16 + x2) * 16 + x3) * 16 + x4)
      | _, _, _, _ => none
    else none
  | _ => none

/-- The states of the JSON scanner inside a string literal (`stateInString`,
`stateInStringEsc`, `stateInStringEscU`, `stateInStringEscU1`, `stateInStringEscU12`,
`stateInStringEscU123`). -/
inductive ScanState where
  | inString
  | inStringEsc
  | inStringEscU
  | inStringEscU1
  | inStringEscU12
  | inStringEscU123
  deriving DecidableEq, Repr

/-- One step of the scanner on the byte `c`: `none` is a syntax error, `some none` the end of
the literal (the closing quote), `some (some st)` the next state. -/
def ScanState.step (st : ScanState) (c : Char) : Option (Option ScanState) :=
  match st with
  | .inString =>
    if c.toNat = 34 then some none
    else if c.toNat = 92 then some (some .inStringEsc)
    else if c.toNat < 32 then none
    else some (some .inString)
  | .inStringEsc =>
    if c.toNat = 98 ∨ c.toNat = 102 ∨ c.toNat = 110 ∨ c.toNat = 114 ∨ c.toNat = 116 ∨
        c.toNat = 92 ∨ c.toNat = 47 ∨ c.toNat = 34 then some (some .inString)
    else if c.toNat = 117 then some (some .inStringEscU)
    else none
  | .inStringEscU => if (hexByteValue c).isSome then some (some .inStringEscU1) else none
  | .inStringEscU1 => if (hexByteValue c).isSome then some (some .inStringEscU12) else none
  | .inStringEscU12 => if (hexByteValue c).isSome then some (some .inStringEscU123) else none
  | .inStringEscU123 => if (hexByteValue c).isSome then some (some .inString) else none

/-- The scanner run over a string literal from the state `st`: the bytes of the literal up
to the closing quote and the bytes after it, or nothing on a syntax error or when the input
ends inside the literal. -/
def scanString : ScanState → List Char → Option (List Char × List Char)
  | _, [] => none
  | st, c :: rest =>
    match st.step c with
    | none => none
    | some none => some ([], rest)
    | some (some st1) => (scanString st1 rest).map (fun p => (c :: p.1, p.2))

/-- The Go call `utf16.DecodeRune(r1, r2)`, with `r2` absent when `getu4` has failed. -/
def utf16DecodeRune (r1 : Nat) (r2 : Option Nat) : Nat :=
  match r2 with
  | some r2 =>
    if 55296 ≤ r1 ∧ r1 < 56320 ∧ 56320 ≤ r2 ∧ r2 < 57344 then
      (r1 - 55296) * 1024 + (r2 - 56320) + 65536
    else 65533
  | none => 65533

/-- One iteration of the decoding loop of `unquoteBytes` of `encoding/json`, for
well-formed UTF-8, on the byte `c` followed by `rest`: the character written and the bytes
still to read, or nothing where the source returns `ok = false`. -/
def unquoteBytes.step (c : Char) (rest : List Char) : Option (Char × List Char) :=
  if c.toNat = 92 then
    match rest with
    | [] => none
    | e :: rest1 =>
      if e.toNat = 34 ∨ e.toNat = 92 ∨ e.toNat = 47 ∨ e.toNat = 39 then some (e, rest1)
      else if e.toNat = 98 then some (Char.ofNat 8, rest1)
      else if e.toNat = 102 then some (Char.ofNat 12, rest1)
      else if e.toNat = 110 then some (Char.ofNat 10, rest1)
      else if e.toNat = 114 then some (Char.ofNat 13, rest1)
      else if e.toNat = 116 then some (Char.ofNat 9, rest1)
      else if e.toNat = 117 then
        match getu4 (c :: e :: rest1) with
        | none => none
        | some rr =>
          let after := rest1.drop 4
          if 55296 ≤ rr ∧ rr < 57344 then
            let dec := utf16DecodeRune rr (getu4 after)
            if dec ≠ 65533 then some (Char.ofNat dec, after.drop 6)
            else some (Char.ofNat 65533, after)
          else some (Char.ofNat rr, after)
      else none
  else if c.toNat = 34 ∨ c.toNat < 32 then none
  else some (c, rest)

/-- The decoding loop of `unquoteBytes` over the bytes between the quotes.  Every
iteration consumes at least one byte, so that a fuel of the number of bytes is enough. -/
def unquoteBytes.loop : Nat → List Char → Option (List Char)
  | _, [] => some []
  | 0, _ :: _ => none
  | fuel + 1, c :: rest =>
    match unquoteBytes.step c rest with
    | none => none
    | some (ch, after) => (unquoteBytes.loop fuel after).map (fun t => ch :: t)

/-- The function `unquoteBytes` of `encoding/json` on the bytes between the quotes. -/
def unquoteBytes (literal : List Char) : Option (List Char) :=
  unquoteBytes.loop literal.length literal

/-- A `*json.SyntaxError`; its message, which quotes the offending byte, is not modelled. -/
def jsonSyntaxError : GoError :=
  GoError.plain "json: syntax error"

/-- The Go call `json.Unmarshal(data, &v)` for a string `v`, on the texts whose value is a
string literal: `checkValid`, then `unquoteBytes` on the literal and `v.SetString`.  The
result is the string afterwards and the error; it is `none` for a text whose first byte
after the white space is not a double quote (other JSON values are not modelled) and where
the source would panic. -/
def jsonUnmarshalString (data : List Char) (v : String) : Option (String × Option GoError) :=
  match data.dropWhile jsonIsSpace with
  | [] => some (v, some jsonSyntaxError)
  | c :: body =>
    if c.toNat = 34 then
      match scanString ScanState.inString body with
      | none => some (v, some jsonSyntaxError)
      | some (literal, rest) =>
        if rest.all jsonIsSpace then
          match unquoteBytes literal with
          | none => none
          | some s => some (String.mk s, none)
        else some (v, some jsonSyntaxError)
    else none

/-- The function `ConvertType` of `convert.go`, over the JSON codec of its two type
arguments: `zero` is the zero value of `T`. -/
def ConvertType {D T : Type} (Marshal : D → List Char × Option GoError)
    (Unmarshal : List Char → T → Option (T × Option GoError)) (zero : T) (data : D) :
    Option (T × Option GoError) :=
  let result := zero
  let r := Marshal data
  let bytes := r.1
  let err := r.2
  if err ≠ none then some (result, err)
  else Unmarshal bytes result

/-! ## All-pairs consistency -/

/-- The all-pairs check the chain check of `GetLogs` is compared with: every result compares
equal to every result. -/
def allPairsConsistent (results : List (List Log)) : Bool :=
  results.all (fun a => results.all (fun b => compareListsLogs a b))

/-! ## Lemmas -/

theorem compareLogs_iff (a b : Log) :
    compareLogs a b = true ↔ a.TxHash = b.TxHash ∧ a.Index = b.Index := by
  simp [compareLogs]

theorem compareListsLogs_loop_iff (logs1 logs2 : List Log) (hlen : logs1.length = logs2.length) :
    ∀ steps i, i + steps = logs1.length →
      (compareListsLogs.loop logs1 logs2 steps i = true ↔
        ∀ j, i ≤ j → ∀ (h1 : j < logs1.length) (h2 : j < logs2.length),
          compareLogs (logs1.get ⟨j, h1⟩) (logs2.get ⟨j, h2⟩) = true) := by
  intro steps
  induction steps with
  | zero =>
    intro i hi
    simp only [compareListsLogs.loop, true_iff]
    intro j hj h1 _
    omega
  | succ n ih =>
    intro i hi
    have h1 : i < logs1.length := by omega
    have h2 : i < logs2.length := by omega
    simp only [compareListsLogs.loop, List.getElem?_eq_getElem h1, List.getElem?_eq_getElem h2]
    by_cases hc : compareLogs logs1[i] logs2[i] = true
    · simp only [hc, Bool.not_true, Bool.false_eq_true, if_false]
      rw [ih (i + 1) (by omega)]
      constructor
      · intro h j hj hj1 hj2
        rcases Nat.eq_or_lt_of_le hj with rfl | hlt
        · simpa using hc
        · exact h j hlt hj1 hj2
      · intro h j hj hj1 hj2
        exact h j (by omega) hj1 hj2
    · simp only [Bool.not_eq_true] at hc
      simp only [hc, Bool.not_false, if_true, Bool.false_eq_true, false_iff]
      intro h
      have := h i (le_refl _) h1 h2
      simp only [List.get_eq_getElem] at this
      rw [hc] at this
      exact Bool.false_ne_true this

theorem compareListsLogs_iff (a b : List Log) :
    compareListsLogs a b = true ↔ LogsAgree a b := by
  unfold compareListsLogs LogsAgree
  by_cases hlen : a.length = b.length
  · have hne : ¬ (a.length ≠ b.length) := by simp [hlen]
    rw [if_neg hne, compareListsLogs_loop_iff a b hlen a.length 0 (by simp)]
    constructor
    · intro h
      exact ⟨hlen, fun j h1 h2 => (compareLogs_iff _ _).1 (h j (Nat.zero_le _) h1 h2)⟩
    · intro h j _ h1 h2
      exact (compareLogs_iff _ _).2 (h.2 j h1 h2)
  · simp [hlen]

theorem consistentLoop_iff (results : List (List Log)) :
    ∀ steps i, i + steps = results.length →
      (GetLogs.consistentLoop (results.length : Int) results steps i true = true ↔
        ∀ j, i ≤ j → j + 1 < results.length →
          compareListsLogs (results.getD j []) (results.getD (j + 1) []) = true) := by
  intro steps
  induction steps with
  | zero =>
    intro i hi
    simp only [GetLogs.consistentLoop, true_iff]
    intro j hj h1
    omega
  | succ n ih =>
    intro i hi
    simp only [GetLogs.consistentLoop]
    by_cases hlt : (i : Int) < (results.length : Int) - 1
    · have hlt2 : i + 1 < results.length := by omega
      simp only [hlt, if_true]
      by_cases hc : compareListsLogs (results.getD i []) (results.getD (i + 1) []) = true
      · simp only [hc, Bool.not_true, Bool.false_eq_true, if_false]
        rw [ih (i + 1) (by omega)]
        constructor
        · intro h j hj hj1
          rcases Nat.eq_or_lt_of_le hj with rfl | hlt3
          · exact hc
          · exact h j hlt3 hj1
        · intro h j hj hj1
          exact h j (by omega) hj1
      · simp only [Bool.not_eq_true] at hc
        simp only [hc, Bool.not_false, if_true, Bool.false_eq_true, false_iff]
        intro h
        have := h i (le_refl _) hlt2
        rw [hc] at this
        exact Bool.false_ne_true this
    · simp only [hlt, if_false]
      rw [ih (i + 1) (by omega)]
      constructor
      · intro h j hj hj1
        omega
      · intro h j hj hj1
        omega

theorem IsAvailable_of_available {now : Nat} {c : Client} (h : c.available now = true) :
    c.IsAvailable now = (true, { c with lastErr := none }) := by
  unfold Client.available Client.IsAvailable at h
  unfold Client.IsAvailable
  by_cases hc : c.lastErr = none ∨ now > c.availableAt
  · rw [if_pos hc]
  · rw [if_neg hc] at h
    exact absurd h (by simp)

theorem IsAvailable_of_not_available {now : Nat} {c : Client} (h : c.available now = false) :
    c.IsAvailable now = (false, c) := by
  unfold Client.available Client.IsAvailable at h
  unfold Client.IsAvailable
  by_cases hc : c.lastErr = none ∨ now > c.availableAt
  · rw [if_pos hc] at h
    exact absurd h (by simp)
  · rw [if_neg hc]

theorem available_clear (now : Nat) (c : Client) :
    Client.available now { c with lastErr := none } = true := by
  simp [Client.available, Client.IsAvailable]

theorem scan_first {now : Nat} {pool : ClientPool} {client : Client} (steps : Nat)
    (hget : pool.clients[pool.counter]? = some client)
    (hav : client.available now = true) :
    GetClient.scan now (steps + 1) pool = some (some pool.counter, pool.advance client) := by
  simp only [GetClient.scan, hget, IsAvailable_of_available hav, if_true, ClientPool.advance]

theorem GetClient_first {fuel : Nat} {w : World} {client : Client}
    (hget : w.pool.clients[w.pool.counter]? = some client)
    (hav : client.available w.now = true) :
    GetClient (fuel + 1) w = some (w.pool.counter, { w with pool := w.pool.advance client }) := by
  have hlen : w.pool.counter < w.pool.clients.length := by
    rcases List.getElem?_eq_some.1 hget with ⟨h, _⟩
    exact h
  obtain ⟨k, hk⟩ : ∃ k, w.pool.clients.length = k + 1 := ⟨w.pool.clients.length - 1, by omega⟩
  simp only [GetClient, hk]
  rw [scan_first k hget hav]

theorem advance_allAvailable {now : Nat} {pool : ClientPool} (client : Client)
    (h : pool.AllAvailable now) : (pool.advance client).AllAvailable now := by
  intro x hx
  simp only [ClientPool.advance] at hx
  rcases List.mem_or_eq_of_mem_set hx with h1 | h1
  · exact h x h1
  · rw [h1]; exact available_clear now client

theorem advance_length (pool : ClientPool) (client : Client) :
    (pool.advance client).clients.length = pool.clients.length := by
  simp [ClientPool.advance]

theorem advance_counter (pool : ClientPool) (client : Client) :
    (pool.advance client).counter = (pool.counter + 1) % pool.clients.length := rfl

theorem advance_WF (pool : ClientPool) (client : Client) (h : pool.WF) :
    (pool.advance client).WF := by
  unfold ClientPool.WF at *
  rw [advance_length, advance_counter]
  exact Nat.mod_lt _ (by omega)

theorem GetClientTimes_allAvailable (fuel : Nat) :
    ∀ (m : Nat) (w : World), w.pool.WF → w.pool.AllAvailable w.now →
      ∃ w1, GetClientTimes (fuel + 1) m w =
          some ((List.range m).map (fun i => (w.pool.counter + i) % w.pool.clients.length), w1) ∧
        w1.pool.counter = (w.pool.counter + m) % w.pool.clients.length ∧
        w1.pool.clients.length = w.pool.clients.length ∧
        w1.now = w.now ∧ w1.calls = w.calls := by
  intro m
  induction m with
  | zero =>
    intro w hwf _
    refine ⟨w, by simp [GetClientTimes], ?_, rfl, rfl, rfl⟩
    simp only [Nat.add_zero]
    exact (Nat.mod_eq_of_lt hwf).symm
  | succ n ih =>
    intro w hwf hav
    have hget : w.pool.clients[w.pool.counter]? = some (w.pool.clients.get ⟨w.pool.counter, hwf⟩) :=
      List.getElem?_eq_getElem hwf
    have hx := hav _ (List.get_mem _ _ hwf)
    have hstep := @GetClient_first fuel w _ hget hx
    obtain ⟨w2, h2, hc2, hlen2, hnow2, hcalls2⟩ :=
      ih { w with pool := w.pool.advance (w.pool.clients.get ⟨w.pool.counter, hwf⟩) }
        (advance_WF _ _ hwf) (advance_allAvailable _ hav)
    simp only [advance_length, advance_counter] at h2 hc2 hlen2 hnow2 hcalls2
    refine ⟨w2, ?_, ?_, hlen2, hnow2, hcalls2⟩
    · simp only [GetClientTimes, hstep, h2]
      rw [List.range_succ_eq_map, List.map_cons, List.map_map]
      simp only [Nat.add_zero, Nat.mod_eq_of_lt hwf]
      congr 3
      apply List.map_congr_left
      intro i _
      simp only [Function.comp, Nat.succ_eq_add_one]
      rw [Nat.mod_add_mod]
      congr 1
      omega
    · rw [hc2, Nat.mod_add_mod]
      congr 1
      omega

theorem rotation_perm (c N : Nat) :
    ((List.range N).map (fun i => (c + i) % N)).Perm (List.range N) := by
  apply List.Subperm.perm_of_length_le
  · apply List.subperm_of_subset
    · apply List.Nodup.map_on _ (List.nodup_range N)
      intro i hi j hj hij
      rw [List.mem_range] at hi hj
      have key : ∀ a b : Nat, a ≤ b → b < N → (c + a) % N = (c + b) % N → a = b := by
        intro a b hab hb h
        have hdvd : N ∣ (c + b) - (c + a) := (Nat.modEq_iff_dvd' (by omega)).1 h
        have hlt : (c + b) - (c + a) < N := by omega
        have := Nat.eq_zero_of_dvd_of_lt hdvd hlt
        omega
      rcases Nat.le_total i j with h | h
      · exact key i j h hj hij
      · exact (key j i h hi hij.symm).symm
    · intro x hx
      rw [List.mem_map] at hx
      obtain ⟨i, hi, rfl⟩ := hx
      rw [List.mem_range] at hi ⊢
      exact Nat.mod_lt _ (by omega)
  · simp

theorem rotation_succ (size cur r : Nat) (h : cur < size) :
    rotation size cur (r + 1) = cur :: rotation size ((cur + 1) % size) r := by
  unfold rotation
  rw [List.range_succ_eq_map, List.map_cons, List.map_map]
  simp only [Nat.add_zero, Nat.mod_eq_of_lt h]
  congr 1
  apply List.map_congr_left
  intro i _
  simp only [Function.comp, Nat.succ_eq_add_one]
  rw [Nat.mod_add_mod]
  congr 1
  omega

theorem available_IsAvailable (now : Nat) (c : Client) :
    Client.available now (c.IsAvailable now).2 = c.available now := by
  by_cases h : c.available now = true
  · rw [IsAvailable_of_available h, h]
    exact available_clear now c
  · simp only [Bool.not_eq_true] at h
    rw [IsAvailable_of_not_available h]

theorem step_length (now : Nat) (pool : ClientPool) (client : Client) :
    (pool.step now client).clients.length = pool.clients.length := by
  simp [ClientPool.step]

theorem step_counter (now : Nat) (pool : ClientPool) (client : Client) :
    (pool.step now client).counter = (pool.counter + 1) % pool.clients.length := rfl

theorem step_WF (now : Nat) (pool : ClientPool) (client : Client) (h : pool.WF) :
    (pool.step now client).WF := by
  unfold ClientPool.WF at *
  rw [step_length]
  exact Nat.mod_lt _ (by omega)

theorem step_availableAt (now : Nat) (pool : ClientPool) (client : Client)
    (hget : pool.clients[pool.counter]? = some client) (i : Nat) :
    (pool.step now client).availableAt now i = pool.availableAt now i := by
  unfold ClientPool.availableAt ClientPool.step
  by_cases hi : pool.counter = i
  · subst hi
    have hlt : pool.counter < pool.clients.length := (List.getElem?_eq_some.1 hget).1
    simp only [List.getElem?_set_self hlt, hget]
    exact available_IsAvailable now client
  · simp only [List.getElem?_set_ne hi]

/-- The collection loop of `GetClients` returns the first available positions in rotation
order, as many as are still wanted, when the `r` positions ahead hold enough of them. -/
theorem collect_spec (now : Nat) (n : Nat) :
    ∀ (r : Nat) (pool : ClientPool) (acc : List Nat) (fuel : Nat),
      (acc.length < n → pool.WF) → r < fuel → acc.length ≤ n →
      n ≤ acc.length +
        ((rotation pool.clients.length pool.counter r).filter (pool.availableAt now)).length →
      ∃ pool1, GetClients.collect now (n : Int) fuel pool acc =
        some (acc ++ ((rotation pool.clients.length pool.counter r).filter
          (pool.availableAt now)).take (n - acc.length), pool1) := by
  intro r
  induction r with
  | zero =>
    intro pool acc fuel _ hfuel hacc hn
    obtain ⟨f, rfl⟩ : ∃ f, fuel = f + 1 := ⟨fuel - 1, by omega⟩
    simp only [rotation, List.range_zero, List.map_nil, List.filter_nil, List.length_nil,
      Nat.add_zero] at hn
    have hnot : ¬ ((acc.length : Int) < (n : Int)) := by omega
    refine ⟨pool, ?_⟩
    simp [GetClients.collect, hnot, rotation]
  | succ r ih =>
    intro pool acc fuel hwf hfuel hacc hn
    obtain ⟨f, rfl⟩ : ∃ f, fuel = f + 1 := ⟨fuel - 1, by omega⟩
    by_cases hdone : acc.length = n
    · have hnot : ¬ ((acc.length : Int) < (n : Int)) := by omega
      refine ⟨pool, ?_⟩
      simp [GetClients.collect, hnot, hdone]
    · have hwf0 : pool.WF := hwf (by omega)
      have hlt : (acc.length : Int) < (n : Int) := by omega
      have hget : pool.clients[pool.counter]? = some (pool.clients.get ⟨pool.counter, hwf0⟩) :=
        List.getElem?_eq_getElem hwf0
      have hrot := rotation_succ pool.clients.length pool.counter r hwf0
      have hfilter : ∀ l : List Nat,
          l.filter ((pool.step now (pool.clients.get ⟨pool.counter, hwf0⟩)).availableAt now) =
            l.filter (pool.availableAt now) := by
        intro l
        apply List.filter_congr
        intro i _
        exact step_availableAt now pool _ hget i
      have hcur : pool.availableAt now pool.counter =
          Client.available now (pool.clients.get ⟨pool.counter, hwf0⟩) := by
        simp only [ClientPool.availableAt, hget]
      rw [hrot, List.filter_cons, hcur] at hn ⊢
      by_cases hav : Client.available now (pool.clients.get ⟨pool.counter, hwf0⟩) = true
      · rw [if_pos hav] at hn ⊢
        simp only [List.length_cons] at hn
        obtain ⟨pool1, h1⟩ := ih (pool.step now (pool.clients.get ⟨pool.counter, hwf0⟩))
          (acc ++ [pool.counter]) f (fun _ => step_WF now pool _ hwf0) (by omega)
          (by simp only [List.length_append, List.length_singleton]; omega)
          (by
            rw [step_length, hfilter, step_counter]
            simp only [List.length_append, List.length_singleton]
            omega)
        rw [step_length, hfilter, step_counter] at h1
        refine ⟨pool1, ?_⟩
        have hav1 : (Client.IsAvailable now (pool.clients.get ⟨pool.counter, hwf0⟩)).1 = true := hav
        have hgoal : GetClients.collect now (n : Int) (f + 1) pool acc =
            GetClients.collect now (n : Int) f
              (pool.step now (pool.clients.get ⟨pool.counter, hwf0⟩)) (acc ++ [pool.counter]) := by
          simp only [GetClients.collect, hlt, if_true, hget, hav1, ClientPool.step]
        rw [hgoal, h1]
        simp only [List.length_append, List.length_singleton,
          List.append_assoc, List.singleton_append]
        obtain ⟨d, hd⟩ : ∃ d, n - acc.length = d + 1 := ⟨n - acc.length - 1, by omega⟩
        have hd2 : n - (acc.length + 1) = d := by omega
        rw [hd, hd2, List.take_succ_cons]
      · rw [if_neg hav] at hn ⊢
        obtain ⟨pool1, h1⟩ := ih (pool.step now (pool.clients.get ⟨pool.counter, hwf0⟩))
          acc f (fun _ => step_WF now pool _ hwf0) (by omega) hacc
          (by
            rw [step_length, hfilter, step_counter]
            omega)
        rw [step_length, hfilter, step_counter] at h1
        refine ⟨pool1, ?_⟩
        have hav1 : (Client.IsAvailable now (pool.clients.get ⟨pool.counter, hwf0⟩)).1 = false := by
          simpa [Client.available] using hav
        have hgoal : GetClients.collect now (n : Int) (f + 1) pool acc =
            GetClients.collect now (n : Int) f
              (pool.step now (pool.clients.get ⟨pool.counter, hwf0⟩)) acc := by
          simp only [GetClients.collect, hlt, if_true, hget, hav1, ClientPool.step,
            Bool.false_eq_true, if_false]
        rw [hgoal, h1]

theorem countAvailableClients_fst (now : Nat) (cs : List Client) :
    (countAvailableClients now cs).1 = (cs.filter (Client.available now)).length := by
  induction cs with
  | nil => rfl
  | cons c rest ih =>
    simp only [countAvailableClients, ih, List.filter_cons]
    by_cases h : (c.IsAvailable now).1 = true
    · have h2 : c.available now = true := h
      simp only [h, h2, if_true, List.length_cons]
      omega
    · have h2 : ¬ c.available now = true := h
      simp only [h, h2, if_false, Bool.false_eq_true]
      omega

theorem countAvailableClients_snd (now : Nat) (cs : List Client) :
    (countAvailableClients now cs).2 = cs.map (fun c => (c.IsAvailable now).2) := by
  induction cs with
  | nil => rfl
  | cons c rest ih => simp only [countAvailableClients, ih, List.map_cons]

theorem range_map_getElem (cs : List Client) :
    (List.range cs.length).map (fun i => cs[i]?) = cs.map some := by
  apply List.ext_getElem (by simp)
  intro i h1 h2
  simp only [List.length_map, List.length_range] at h1
  simp [List.getElem?_eq_getElem h1]

theorem filter_range_availableAt (now : Nat) (pool : ClientPool) :
    ((List.range pool.clients.length).filter (pool.availableAt now)).length =
      (pool.clients.filter (Client.available now)).length := by
  have h1 : (pool.availableAt now) =
      (fun o : Option Client => match o with
        | some c => c.available now
        | none => false) ∘ (fun i => pool.clients[i]?) := by
    funext i
    rfl
  have h2 : (Client.available now) =
      (fun o : Option Client => match o with
        | some c => c.available now
        | none => false) ∘ some := by
    funext c
    rfl
  rw [h1, ← List.length_map _ (fun i => pool.clients[i]?), ← List.filter_map,
    range_map_getElem, List.filter_map, List.length_map, ← h2]

theorem await_enough (numClients : Int) (fuel : Nat) (w : World)
    (h : numClients ≤ ((w.pool.clients.filter (Client.available w.now)).length : Int)) :
    GetClients.await numClients (fuel + 1) w =
      some { w with pool :=
        { w.pool with clients := w.pool.clients.map (fun c => (c.IsAvailable w.now).2) } } := by
  have hnot : ¬ (((countAvailableClients w.now w.pool.clients).1 : Int) < numClients) := by
    rw [countAvailableClients_fst]
    omega
  simp only [GetClients.await, hnot, if_false, countAvailableClients_snd]

theorem map_availableAt (now : Nat) (pool : ClientPool) (i : Nat) :
    ClientPool.availableAt now
        { pool with clients := pool.clients.map (fun c => (c.IsAvailable now).2) } i =
      pool.availableAt now i := by
  unfold ClientPool.availableAt
  simp only [List.getElem?_map]
  cases pool.clients[i]? with
  | none => rfl
  | some c => exact available_IsAvailable now c

theorem set_get_same {α : Type} (l : List α) :
    ∀ (i : Nat) (h : i < l.length), l.set i (l.get ⟨i, h⟩) = l := by
  induction l with
  | nil => intro i h; exact absurd h (Nat.not_lt_zero _)
  | cons x xs ih =>
    intro i h
    cases i with
    | zero => rfl
    | succ j =>
      simp only [List.set_cons_succ, List.get_cons_succ]
      rw [ih j (by simpa using h)]

theorem scan_total (now : Nat) :
    ∀ (k : Nat) (pool : ClientPool), pool.WF →
      ∃ r pool1, GetClient.scan now k pool = some (r, pool1) ∧ pool1.WF ∧
        pool1.clients.length = pool.clients.length ∧
        (∀ idx, r = some idx → idx < pool.clients.length) ∧
        (r = none → pool1.clients = pool.clients ∧
          pool1.counter = (pool.counter + k) % pool.clients.length) := by
  intro k
  induction k with
  | zero =>
    intro pool hwf
    refine ⟨none, pool, rfl, hwf, rfl, by simp, fun _ => ⟨rfl, ?_⟩⟩
    exact (Nat.mod_eq_of_lt hwf).symm
  | succ k ih =>
    intro pool hwf
    have hget : pool.clients[pool.counter]? = some (pool.clients.get ⟨pool.counter, hwf⟩) :=
      List.getElem?_eq_getElem hwf
    by_cases hav : Client.available now (pool.clients.get ⟨pool.counter, hwf⟩) = true
    · refine ⟨some pool.counter, pool.advance _, scan_first k hget hav, advance_WF _ _ hwf,
        advance_length _ _, ?_, by simp⟩
      intro idx hidx
      cases hidx
      exact hwf
    · simp only [Bool.not_eq_true] at hav
      have hstep : GetClient.scan now (k + 1) pool =
          GetClient.scan now k (pool.step now (pool.clients.get ⟨pool.counter, hwf⟩)) := by
        have hav1 : (Client.IsAvailable now (pool.clients.get ⟨pool.counter, hwf⟩)).1 = false := hav
        simp only [GetClient.scan, hget, hav1, ClientPool.step, Bool.false_eq_true, if_false]
      have hsame : pool.step now (pool.clients.get ⟨pool.counter, hwf⟩) =
          { pool with counter := (pool.counter + 1) % pool.clients.length } := by
        simp only [ClientPool.step, IsAvailable_of_not_available hav]
        congr 1
        exact set_get_same _ _ hwf
      obtain ⟨r, pool1, h1, h2, h3, h4, h5⟩ := ih _ (step_WF now pool _ hwf)
      rw [step_length] at h3 h4 h5
      refine ⟨r, pool1, by rw [hstep, h1], h2, h3, h4, ?_⟩
      intro hr
      obtain ⟨h6, h7⟩ := h5 hr
      rw [hsame] at h6 h7
      refine ⟨h6, ?_⟩
      rw [h7]
      simp only [Nat.mod_add_mod]
      congr 1
      omega

/-- The endpoint selection returns once the endpoint under the cursor has served its penalty:
`d` sleeps of 15 seconds are enough when it is available at `now + d * 15` seconds. -/
theorem GetClient_returns :
    ∀ (d : Nat) (w : World), w.pool.WF →
      w.pool.availableAt (w.now + d * (15 * Second)) w.pool.counter = true →
      ∀ fuel, d < fuel →
        ∃ idx w1, GetClient fuel w = some (idx, w1) ∧ w1.pool.WF ∧ w1.calls = w.calls ∧
          idx < w.pool.clients.length ∧ w1.pool.clients.length = w.pool.clients.length := by
  intro d
  induction d with
  | zero =>
    intro w hwf hav fuel hfuel
    obtain ⟨f, rfl⟩ : ∃ f, fuel = f + 1 := ⟨fuel - 1, by omega⟩
    have hget : w.pool.clients[w.pool.counter]? = some (w.pool.clients.get ⟨w.pool.counter, hwf⟩) :=
      List.getElem?_eq_getElem hwf
    simp only [ClientPool.availableAt, hget, Nat.zero_mul, Nat.add_zero] at hav
    exact ⟨_, _, GetClient_first hget hav, advance_WF _ _ hwf, rfl, hwf, advance_length _ _⟩
  | succ d ih =>
    intro w hwf hav fuel hfuel
    obtain ⟨f, rfl⟩ : ∃ f, fuel = f + 1 := ⟨fuel - 1, by omega⟩
    obtain ⟨r, pool1, h1, h2, h3, h4, h5⟩ := scan_total w.now w.pool.clients.length w.pool hwf
    cases r with
    | some idx =>
      refine ⟨idx, { w with pool := pool1 }, ?_, h2, rfl, h4 idx rfl, h3⟩
      simp only [GetClient, h1]
    | none =>
      obtain ⟨h6, h7⟩ := h5 rfl
      rw [Nat.add_mod_right, Nat.mod_eq_of_lt hwf] at h7
      have hp : pool1 = w.pool := by
        cases pool1
        cases hw : w.pool
        simp only [hw] at h6 h7
        simp only [ClientPool.mk.injEq]
        exact ⟨h6, h7⟩
      subst hp
      obtain ⟨idx, w1, g1, g2, g3, g4, g5⟩ :=
        ih { w with now := w.now + 15 * Second } hwf
          (by
            have : w.now + 15 * Second + d * (15 * Second) = w.now + (d + 1) * (15 * Second) := by
              ring
            simp only [this]
            exact hav) f (by omega)
      refine ⟨idx, w1, ?_, g2, g3, g4, g5⟩
      simp only [GetClient, h1]
      exact g1

theorem availableAt_eventually (now : Nat) (pool : ClientPool) (hwf : pool.WF) :
    ∃ d, pool.availableAt (now + d * (15 * Second)) pool.counter = true := by
  have hget : pool.clients[pool.counter]? = some (pool.clients.get ⟨pool.counter, hwf⟩) :=
    List.getElem?_eq_getElem hwf
  refine ⟨(pool.clients.get ⟨pool.counter, hwf⟩).availableAt + 1, ?_⟩
  have : now + ((pool.clients.get ⟨pool.counter, hwf⟩).availableAt + 1) * (15 * Second) >
      (pool.clients.get ⟨pool.counter, hwf⟩).availableAt := by
    have h15 : 1 ≤ 15 * Second := by decide
    calc (pool.clients.get ⟨pool.counter, hwf⟩).availableAt
        < ((pool.clients.get ⟨pool.counter, hwf⟩).availableAt + 1) * 1 := by omega
      _ ≤ ((pool.clients.get ⟨pool.counter, hwf⟩).availableAt + 1) * (15 * Second) :=
          Nat.mul_le_mul_left _ h15
      _ ≤ _ := Nat.le_add_left _ _
  unfold ClientPool.availableAt
  rw [hget]
  show (Client.IsAvailable _ _).1 = true
  unfold Client.IsAvailable
  rw [if_pos (Or.inr this)]

theorem GetClient_calls :
    ∀ (fuel : Nat) (w : World) (idx : Nat) (w1 : World),
      GetClient fuel w = some (idx, w1) → w1.calls = w.calls := by
  intro fuel
  induction fuel with
  | zero => intro w idx w1 h; simp [GetClient] at h
  | succ f ih =>
    intro w idx w1 h
    simp only [GetClient] at h
    split at h
    · simp at h
    · simp only [Option.some.injEq, Prod.mk.injEq] at h
      rw [← h.2]
    · have := ih _ _ _ h
      rw [this]

theorem GetTransactionReceipt_calls (node : Node) (txHash : Nat) :
    ∀ (fuel : Nat) (w : World) (r : Option Receipt × Option GoError) (w1 : World),
      GetTransactionReceipt node fuel w txHash = some (r, w1) →
      ∃ client rest, w1.calls = w.calls ++ Call.transactionReceipt client txHash :: rest := by
  intro fuel
  induction fuel with
  | zero => intro w r w1 h; simp [GetTransactionReceipt] at h
  | succ f ih =>
    intro w r w1 h
    simp only [GetTransactionReceipt] at h
    split at h
    · simp at h
    · rename_i client w0 hsel
      have hc := GetClient_calls _ _ _ _ hsel
      split at h
      · split at h
        · obtain ⟨c2, rest, h2⟩ := ih _ _ _ h
          refine ⟨client, Call.transactionReceipt c2 txHash :: rest, ?_⟩
          rw [h2]
          simp [World.afterCall, hc]
        · simp only [Option.some.injEq, Prod.mk.injEq] at h
          refine ⟨client, [], ?_⟩
          rw [← h.2]
          simp [World.afterCall, hc]
      · simp only [Option.some.injEq, Prod.mk.injEq] at h
        refine ⟨client, [], ?_⟩
        rw [← h.2]
        simp [World.afterCall, hc]

/-- When every query over the range fails, with whatever error, `getLogs` never returns. -/
theorem getLogs_never_returns_on_errors (node : Node) (fromBlock toBlock : Nat)
    (hle : fromBlock ≤ toBlock)
    (herr : ∀ n client q, q.FromBlock = some (toInt64 fromBlock) →
      q.ToBlock = some (toInt64 toBlock) → (node.FilterLogs n client q).2 ≠ none) :
    ∀ (fuel : Nat) (w : World) (filterQuery : FilterQuery) (specificClient : List Nat),
      getLogs node fuel w filterQuery fromBlock toBlock specificClient = none := by
  intro fuel
  induction fuel with
  | zero => intro w fq sc; rfl
  | succ f ih =>
    intro w fq sc
    have hnot : ¬ fromBlock > toBlock := by omega
    simp only [getLogs]
    split
    · rfl
    · rename_i client w1 _
      rw [if_neg hnot]
      have h := herr w1.calls.length client
        { fq with FromBlock := some (toInt64 fromBlock), ToBlock := some (toInt64 toBlock) }
        rfl rfl
      simp only [h, ne_eq, not_false_eq_true, if_true]
      exact ih _ _ _

/-- Whenever `getLogs` returns, its error is nil: no query error ever reaches the caller. -/
theorem getLogs_error_nil (node : Node) :
    ∀ (fuel : Nat) (w : World) (filterQuery : FilterQuery) (fromBlock toBlock : Nat)
      (specificClient : List Nat) (r : List Log × Option GoError) (w1 : World),
      getLogs node fuel w filterQuery fromBlock toBlock specificClient = some (r, w1) →
      r.2 = none := by
  intro fuel
  induction fuel with
  | zero => intro w fq a b sc r w1 h; simp [getLogs] at h
  | succ f ih =>
    intro w fq a b sc r w1 h
    simp only [getLogs] at h
    split at h
    · simp at h
    · rename_i client w0 _
      split at h
      · simp only [Option.some.injEq, Prod.mk.injEq] at h
        rw [← h.1]
      · split at h
        · exact ih _ _ _ _ _ _ _ h
        · rename_i hnone
          simp only [ne_eq, not_not] at hnone
          simp only [hnone, isLogTooLargeError, Bool.false_and, Bool.false_eq_true, if_false,
            errorsWrap, Option.some.injEq, Prod.mk.injEq] at h
          rw [← h.1]

/-! ### Hexadecimal conversion (`hex.go`) -/

theorem digitValue_strconvDigit (d : Nat) (h : d < 16) :
    digitValue (strconvDigit d) = some d := by
  interval_cases d <;> rfl

theorem strconvDigit_toNat (d : Nat) (h : d < 16) :
    (48 ≤ (strconvDigit d).toNat ∧ (strconvDigit d).toNat ≤ 57) ∨
      (97 ≤ (strconvDigit d).toNat ∧ (strconvDigit d).toNat ≤ 102) := by
  interval_cases d <;> decide

theorem ParseUint_loop_digit (n d : Nat) (rest : List Char) (hd : d < 16) (hn : n < 2 ^ 60) :
    ParseUintHex64.loop n (strconvDigit d :: rest) = ParseUintHex64.loop (n * 16 + d) rest := by
  have h1 : ¬ d ≥ 16 := by omega
  have hc : (2 ^ 64 - 1) / 16 + 1 = 2 ^ 60 := by norm_num
  have h2 : ¬ n ≥ (2 ^ 64 - 1) / 16 + 1 := by rw [hc]; omega
  have h3 : (n * 16) % 2 ^ 64 = n * 16 := Nat.mod_eq_of_lt (by omega)
  have h4 : (n * 16 + d) % 2 ^ 64 = n * 16 + d := Nat.mod_eq_of_lt (by omega)
  have h5 : ¬ (n * 16 + d < n * 16 ∨ n * 16 + d > 2 ^ 64 - 1) := by omega
  simp only [ParseUintHex64.loop, digitValue_strconvDigit d hd, h1, h2, h3, h4, h5, if_false]

theorem parse_format :
    ∀ (fuel u : Nat) (acc : List Char), u < 16 ^ (fuel + 1) → u < 2 ^ 64 →
      ParseUintHex64.loop 0 (formatBits.loop fuel u acc) = ParseUintHex64.loop u acc := by
  intro fuel
  induction fuel with
  | zero =>
    intro u acc h1 _
    have hu : u < 16 := by simpa using h1
    simp only [formatBits.loop]
    rw [ParseUint_loop_digit 0 u acc hu (by norm_num)]
    simp
  | succ f ih =>
    intro u acc h1 h2
    simp only [formatBits.loop]
    by_cases hge : u ≥ 16
    · rw [if_pos hge]
      have hdiv : u / 16 < 16 ^ (f + 1) := by
        rw [Nat.div_lt_iff_lt_mul (by norm_num)]
        calc u < 16 ^ (f + 1 + 1) := h1
          _ = 16 ^ (f + 1) * 16 := by rw [pow_succ]
      rw [ih (u / 16) _ hdiv (by omega),
        ParseUint_loop_digit (u / 16) (u % 16) acc (Nat.mod_lt _ (by norm_num)) (by omega)]
      congr 1
      omega
    · rw [if_neg hge]
      rw [ParseUint_loop_digit 0 u acc (by omega) (by norm_num)]
      simp

theorem format_chars :
    ∀ (fuel u : Nat) (acc : List Char), u < 16 ^ (fuel + 1) →
      ∀ c ∈ formatBits.loop fuel u acc, c ∈ acc ∨ ∃ d, d < 16 ∧ c = strconvDigit d := by
  intro fuel
  induction fuel with
  | zero =>
    intro u acc h1 c hc
    have hu : u < 16 := by simpa using h1
    simp only [formatBits.loop, List.mem_cons] at hc
    rcases hc with rfl | hc
    · exact Or.inr ⟨u, hu, rfl⟩
    · exact Or.inl hc
  | succ f ih =>
    intro u acc h1 c hc
    simp only [formatBits.loop] at hc
    by_cases hge : u ≥ 16
    · rw [if_pos hge] at hc
      have hdiv : u / 16 < 16 ^ (f + 1) := by
        rw [Nat.div_lt_iff_lt_mul (by norm_num)]
        calc u < 16 ^ (f + 1 + 1) := h1
          _ = 16 ^ (f + 1) * 16 := by rw [pow_succ]
      rcases ih (u / 16) _ hdiv c hc with h | h
      · rw [List.mem_cons] at h
        rcases h with rfl | h
        · exact Or.inr ⟨u % 16, Nat.mod_lt _ (by norm_num), rfl⟩
        · exact Or.inl h
      · exact Or.inr h
    · rw [if_neg hge, List.mem_cons] at hc
      rcases hc with rfl | hc
      · exact Or.inr ⟨u, by omega, rfl⟩
      · exact Or.inl hc

theorem format_ne_nil (fuel u : Nat) (acc : List Char) : formatBits.loop fuel u acc ≠ [] := by
  induction fuel generalizing u acc with
  | zero => simp [formatBits.loop]
  | succ f ih =>
    simp only [formatBits.loop]
    split
    · exact ih _ _
    · simp

theorem replace_absent (x : Char) :
    ∀ s : List Char, (∀ c ∈ s, c ≠ x) → stringsReplaceAll.go ['0', x] [] 0 s = s := by
  intro s
  induction s with
  | nil => intro _; rfl
  | cons c rest ih =>
    intro h
    have hrest : startsWith rest [x] = false := by
      cases rest with
      | nil => rfl
      | cons r rs =>
        have : r ≠ x := h r (by simp)
        simp [startsWith, this]
    have hno : startsWith (c :: rest) ['0', x] = false := by
      simp only [startsWith, hrest, Bool.and_false]
    simp only [stringsReplaceAll.go, hno, Bool.false_eq_true, if_false]
    rw [ih (fun c hc => h c (List.mem_cons_of_mem _ hc))]

theorem strconvDigit_ne (d : Nat) (h : d < 16) (x : Char)
    (hx : x.toNat = 120 ∨ x.toNat = 88 ∨ x.toNat = 43 ∨ x.toNat = 45) : strconvDigit d ≠ x := by
  intro heq
  have := strconvDigit_toNat d h
  rw [heq] at this
  omega

theorem hexaNumberToString_of_0x (l : List Char)
    (hx : ∀ c ∈ l, c ≠ 'x') (hX : ∀ c ∈ l, c ≠ 'X') :
    hexaNumberToString ("0x" ++ String.mk l) = String.mk l := by
  have h1 : ("0x" ++ String.mk l).toList = '0' :: 'x' :: l := by
    simp [String.toList]
  have hne1 : ¬ ("0x" : String) = "" := by decide
  have hne2 : ¬ ("0X" : String) = "" := by decide
  have hfirst : stringsReplaceAll ("0x" ++ String.mk l) "0x" "" = String.mk l := by
    unfold stringsReplaceAll
    rw [if_neg hne1, h1]
    have : ("0x" : String).toList = ['0', 'x'] := rfl
    have e : ("" : String).toList = [] := rfl
    rw [this, e]
    have hs : startsWith ('0' :: 'x' :: l) ['0', 'x'] = true := by
      simp [startsWith]
    simp only [stringsReplaceAll.go, hs, if_true, List.length_cons, List.length_nil,
      List.nil_append]
    show String.mk (stringsReplaceAll.go ['0', 'x'] [] 0 l) = String.mk l
    rw [replace_absent 'x' l hx]
  unfold hexaNumberToString
  simp only [hfirst]
  unfold stringsReplaceAll
  rw [if_neg hne2]
  have : ("0X" : String).toList = ['0', 'X'] := rfl
  have e : ("" : String).toList = [] := rfl
  rw [this, e]
  show String.mk (stringsReplaceAll.go ['0', 'X'] [] 0 l) = String.mk l
  rw [replace_absent 'X' l hX]

theorem toInt64_small (un : Nat) (h : un < 2 ^ 63) : toInt64 un = (un : Int) := by
  unfold toInt64
  have h1 : un % 2 ^ 64 = un := Nat.mod_eq_of_lt (by omega)
  rw [h1, if_pos h]

theorem toInt64_neg (un : Nat) (h : un ≤ 2 ^ 63) :
    toInt64 ((-toInt64 un) % 2 ^ 64).toNat = -(un : Int) := by
  have h1 : un % 2 ^ 64 = un := Nat.mod_eq_of_lt (by omega)
  rcases Nat.lt_or_ge un (2 ^ 63) with hlt | hge
  · rw [toInt64_small un hlt]
    unfold toInt64
    split <;> omega
  · have he : un = 2 ^ 63 := by omega
    subst he
    decide

theorem ParseInt_negative (ds : List Char) (un : Nat)
    (h : ParseUintHex64 ds = (un, none)) (hle : un ≤ 2 ^ 63) :
    ParseIntHex64 (String.mk ('-' :: ds)) = (-(un : Int), none) := by
  have hsign : ('-' = '+' ∨ '-' = '-') := Or.inr rfl
  have h1 : ¬ ((un, (none : Option NumErrKind)).2 = some NumErrKind.ErrSyntax) := by simp
  have h2 : ¬ (decide ('-' = '-') = false ∧ un ≥ 2 ^ 63) := by simp
  have h3 : ¬ (decide ('-' = '-') = true ∧ un > 2 ^ 63) := by
    intro hc
    omega
  dsimp only [ParseIntHex64, String.toList]
  rw [if_pos hsign, h, if_neg h1, if_neg h2, if_neg h3]
  dsimp only
  rw [if_pos (by decide), toInt64_neg un hle]

theorem ParseInt_unsigned (c : Char) (ds : List Char) (un : Nat)
    (hplus : c ≠ '+') (hminus : c ≠ '-')
    (h : ParseUintHex64 (c :: ds) = (un, none)) (hlt : un < 2 ^ 63) :
    ParseIntHex64 (String.mk (c :: ds)) = ((un : Int), none) := by
  have hsign : ¬ (c = '+' ∨ c = '-') := by
    intro hc
    rcases hc with hc | hc
    · exact hplus hc
    · exact hminus hc
  have h1 : ¬ ((un, (none : Option NumErrKind)).2 = some NumErrKind.ErrSyntax) := by simp
  have h2 : ¬ (decide (c = '-') = false ∧ un ≥ 2 ^ 63) := by
    intro hc
    omega
  have h3 : ¬ (decide (c = '-') = true ∧ un > 2 ^ 63) := by
    intro hc
    omega
  have h4 : decide (c = '-') = false := by simp [hminus]
  dsimp only [ParseIntHex64, String.toList]
  rw [if_neg hsign, h, if_neg h1, if_neg h2, if_neg h3]
  dsimp only
  rw [h4, if_neg (by decide), toInt64_small un hlt]

/-! ### JSON conversion (`convert.go`) -/

theorem hexByteValue_jsonHex (d : Nat) (h : d < 16) : hexByteValue (jsonHex d) = some d := by
  interval_cases d <;> rfl

theorem getu4_low (b : Nat) (hb : b < 256) (tail : List Char) :
    getu4 (Char.ofNat 92 :: 'u' :: '0' :: '0' :: jsonHex (b / 16) :: jsonHex (b % 16) :: tail) =
      some b := by
  have h1 : hexByteValue (jsonHex (b / 16)) = some (b / 16) :=
    hexByteValue_jsonHex _ (by omega)
  have h2 : hexByteValue (jsonHex (b % 16)) = some (b % 16) :=
    hexByteValue_jsonHex _ (by omega)
  have h0 : hexByteValue '0' = some 0 := rfl
  have hc : (Char.ofNat 92).toNat = 92 ∧ ('u' : Char).toNat = 117 := by decide
  simp only [getu4, hc, and_self, if_true, h0, h1, h2, Option.some.injEq]
  omega

theorem getu4_separator (b : Nat) (hb : b = 8232 ∨ b = 8233) (tail : List Char) :
    getu4 (Char.ofNat 92 :: 'u' :: '2' :: '0' :: '2' :: jsonHex (b % 16) :: tail) = some b := by
  rcases hb with rfl | rfl <;> rfl

theorem unquote_step_u (rest1 : List Char) (rr : Nat)
    (hu : getu4 (Char.ofNat 92 :: 'u' :: rest1) = some rr)
    (hsur : ¬ (55296 ≤ rr ∧ rr < 57344)) :
    unquoteBytes.step (Char.ofNat 92) ('u' :: rest1) = some (Char.ofNat rr, rest1.drop 4) := by
  have hbs : (Char.ofNat 92).toNat = 92 := by decide
  have e1 : ¬ (('u' : Char).toNat = 34 ∨ ('u' : Char).toNat = 92 ∨ ('u' : Char).toNat = 47 ∨
      ('u' : Char).toNat = 39) := by decide
  unfold unquoteBytes.step
  rw [if_pos hbs]
  dsimp only
  rw [if_neg e1, if_neg (by decide), if_neg (by decide), if_neg (by decide),
    if_neg (by decide), if_neg (by decide), if_pos (by decide), hu]
  dsimp only
  rw [if_neg hsur]

theorem unquote_step_char (shortEscapes : Bool) (c : Char) (tail : List Char) :
    ∃ x xs, appendString.char shortEscapes c = x :: xs ∧
      unquoteBytes.step x (xs ++ tail) = some (c, tail) := by
  have hcc : Char.ofNat c.toNat = c := Char.ofNat_toNat c
  have hbs : (Char.ofNat 92).toNat = 92 := by decide
  unfold appendString.char
  simp only
  split_ifs with h1 h2 h3 h4 h5 h6 h7 h8 h9
  · -- copied as it is
    simp only [htmlSafeSet, decide_eq_true_eq] at h2
    refine ⟨c, [], rfl, ?_⟩
    unfold unquoteBytes.step
    rw [if_neg (by omega), if_neg (by omega)]
    rfl
  · -- backslash or quote
    refine ⟨Char.ofNat 92, [c], rfl, ?_⟩
    have e : c.toNat = 34 ∨ c.toNat = 92 ∨ c.toNat = 47 ∨ c.toNat = 39 := by omega
    unfold unquoteBytes.step
    rw [if_pos hbs]
    show (if c.toNat = 34 ∨ c.toNat = 92 ∨ c.toNat = 47 ∨ c.toNat = 39 then some (c, tail)
      else _) = _
    rw [if_pos e]
  · have e : c = Char.ofNat 8 := by rw [← hcc, h4.1]
    subst e
    exact ⟨Char.ofNat 92, ['b'], rfl, rfl⟩
  · have e : c = Char.ofNat 12 := by rw [← hcc, h5.1]
    subst e
    exact ⟨Char.ofNat 92, ['f'], rfl, rfl⟩
  · have e : c = Char.ofNat 10 := by rw [← hcc, h6]
    subst e
    exact ⟨Char.ofNat 92, ['n'], rfl, rfl⟩
  · have e : c = Char.ofNat 13 := by rw [← hcc, h7]
    subst e
    exact ⟨Char.ofNat 92, ['r'], rfl, rfl⟩
  · have e : c = Char.ofNat 9 := by rw [← hcc, h8]
    subst e
    exact ⟨Char.ofNat 92, ['t'], rfl, rfl⟩
  · -- a `\u00XX` escape
    refine ⟨Char.ofNat 92, ['u', '0', '0', jsonHex (c.toNat / 16), jsonHex (c.toNat % 16)],
      rfl, ?_⟩
    have := unquote_step_u
      ('0' :: '0' :: jsonHex (c.toNat / 16) :: jsonHex (c.toNat % 16) :: tail)
      c.toNat (getu4_low c.toNat (by omega) tail) (by omega)
    rw [hcc] at this
    exact this
  · -- line and paragraph separators
    refine ⟨Char.ofNat 92, ['u', '2', '0', '2', jsonHex (c.toNat % 16)], rfl, ?_⟩
    have := unquote_step_u ('2' :: '0' :: '2' :: jsonHex (c.toNat % 16) :: tail)
      c.toNat (getu4_separator c.toNat h9 tail) (by omega)
    rw [hcc] at this
    exact this
  · -- any other character
    refine ⟨c, [], rfl, ?_⟩
    unfold unquoteBytes.step
    rw [if_neg (by omega), if_neg (by omega)]
    rfl

theorem unquote_loop_char (shortEscapes : Bool) (c : Char) (fuel : Nat) (tail : List Char) :
    unquoteBytes.loop (fuel + 1) (appendString.char shortEscapes c ++ tail) =
      (unquoteBytes.loop fuel tail).map (fun t => c :: t) := by
  obtain ⟨x, xs, h1, h2⟩ := unquote_step_char shortEscapes c tail
  rw [h1, List.cons_append, unquoteBytes.loop, h2]

theorem unquote_loop_encoded (shortEscapes : Bool) :
    ∀ (l : List Char) (fuel : Nat), l.length ≤ fuel →
      unquoteBytes.loop fuel (l.flatMap (appendString.char shortEscapes)) = some l := by
  intro l
  induction l with
  | nil =>
    intro fuel _
    cases fuel <;> rfl
  | cons c cs ih =>
    intro fuel hf
    obtain ⟨f, rfl⟩ : ∃ f, fuel = f + 1 := ⟨fuel - 1, by simp at hf; omega⟩
    rw [List.flatMap_cons, unquote_loop_char, ih f (by simpa using hf)]
    rfl

theorem appendString_char_length (shortEscapes : Bool) (c : Char) :
    1 ≤ (appendString.char shortEscapes c).length := by
  unfold appendString.char
  simp only
  split_ifs <;> simp

theorem flatMap_length_ge (shortEscapes : Bool) (l : List Char) :
    l.length ≤ (l.flatMap (appendString.char shortEscapes)).length := by
  induction l with
  | nil => simp
  | cons c cs ih =>
    rw [List.flatMap_cons, List.length_append, List.length_cons]
    have := appendString_char_length shortEscapes c
    omega

theorem scan_cons (st st1 : ScanState) (c : Char) (rest : List Char)
    (h : st.step c = some (some st1)) :
    scanString st (c :: rest) = (scanString st1 rest).map (fun p => (c :: p.1, p.2)) := by
  rw [scanString, h]

theorem scan_plain (c : Char) (tail : List Char)
    (h1 : ¬ c.toNat = 34) (h2 : ¬ c.toNat = 92) (h3 : ¬ c.toNat < 32) :
    scanString .inString (c :: tail) =
      (scanString .inString tail).map (fun p => (c :: p.1, p.2)) := by
  apply scan_cons
  simp only [ScanState.step, h1, h2, h3, if_false]

theorem scan_escape (e : Char) (tail : List Char)
    (h : e.toNat = 98 ∨ e.toNat = 102 ∨ e.toNat = 110 ∨ e.toNat = 114 ∨ e.toNat = 116 ∨
        e.toNat = 92 ∨ e.toNat = 47 ∨ e.toNat = 34) :
    scanString .inString (Char.ofNat 92 :: e :: tail) =
      (scanString .inString tail).map (fun p => (Char.ofNat 92 :: e :: p.1, p.2)) := by
  rw [scan_cons .inString .inStringEsc _ _ (by decide),
    scan_cons .inStringEsc .inString e _ (by simp only [ScanState.step, h, if_true]),
    Option.map_map]
  rfl

theorem scan_escape_u (h1 h2 h3 h4 : Char) (tail : List Char)
    (g1 : (hexByteValue h1).isSome = true) (g2 : (hexByteValue h2).isSome = true)
    (g3 : (hexByteValue h3).isSome = true) (g4 : (hexByteValue h4).isSome = true) :
    scanString .inString (Char.ofNat 92 :: 'u' :: h1 :: h2 :: h3 :: h4 :: tail) =
      (scanString .inString tail).map
        (fun p => (Char.ofNat 92 :: 'u' :: h1 :: h2 :: h3 :: h4 :: p.1, p.2)) := by
  rw [scan_cons .inString .inStringEsc _ _ (by decide),
    scan_cons .inStringEsc .inStringEscU _ _ (by decide),
    scan_cons .inStringEscU .inStringEscU1 h1 _ (by simp only [ScanState.step, g1, if_true]),
    scan_cons .inStringEscU1 .inStringEscU12 h2 _ (by simp only [ScanState.step, g2, if_true]),
    scan_cons .inStringEscU12 .inStringEscU123 h3 _ (by simp only [ScanState.step, g3, if_true]),
    scan_cons .inStringEscU123 .inString h4 _ (by simp only [ScanState.step, g4, if_true])]
  simp only [Option.map_map]
  rfl

theorem jsonHex_isHex (d : Nat) (h : d < 16) : (hexByteValue (jsonHex d)).isSome = true := by
  rw [hexByteValue_jsonHex d h]
  rfl

theorem scan_char (shortEscapes : Bool) (c : Char) (tail : List Char) :
    scanString .inString (appendString.char shortEscapes c ++ tail) =
      (scanString .inString tail).map
        (fun p => (appendString.char shortEscapes c ++ p.1, p.2)) := by
  unfold appendString.char
  simp only
  split_ifs with h1 h2 h3 h4 h5 h6 h7 h8 h9
  · simp only [htmlSafeSet, decide_eq_true_eq] at h2
    exact scan_plain c tail (by omega) (by omega) (by omega)
  · exact scan_escape c tail (by omega)
  · exact scan_escape 'b' tail (by decide)
  · exact scan_escape 'f' tail (by decide)
  · exact scan_escape 'n' tail (by decide)
  · exact scan_escape 'r' tail (by decide)
  · exact scan_escape 't' tail (by decide)
  · exact scan_escape_u '0' '0' _ _ tail rfl rfl (jsonHex_isHex _ (by omega))
      (jsonHex_isHex _ (by omega))
  · exact scan_escape_u '2' '0' '2' _ tail rfl rfl rfl (jsonHex_isHex _ (by omega))
  · exact scan_plain c tail (by omega) (by omega) (by omega)

theorem scan_encoded (shortEscapes : Bool) (tail : List Char) :
    ∀ l : List Char,
      scanString .inString (l.flatMap (appendString.char shortEscapes) ++ Char.ofNat 34 :: tail) =
        some (l.flatMap (appendString.char shortEscapes), tail) := by
  intro l
  induction l with
  | nil => rfl
  | cons c cs ih =>
    rw [List.flatMap_cons, List.append_assoc, scan_char, ih]
    rfl

theorem ConvertType_test_case :
    ConvertType (jsonMarshalString true) jsonUnmarshalString "" "test" = some ("test", none) := by
  decide

/-! ### All-pairs consistency -/

theorem LogsAgree_refl (a : List Log) : LogsAgree a a :=
  ⟨rfl, fun _ _ _ => ⟨rfl, rfl⟩⟩

theorem LogsAgree_symm {a b : List Log} (h : LogsAgree a b) : LogsAgree b a :=
  ⟨h.1.symm, fun j h1 h2 => ⟨(h.2 j h2 h1).1.symm, (h.2 j h2 h1).2.symm⟩⟩

theorem LogsAgree_trans {a b c : List Log} (h1 : LogsAgree a b) (h2 : LogsAgree b c) :
    LogsAgree a c := by
  refine ⟨h1.1.trans h2.1, fun j ha hc => ?_⟩
  have hb : j < b.length := by rw [← h1.1]; exact ha
  exact ⟨(h1.2 j ha hb).1.trans (h2.2 j hb hc).1, (h1.2 j ha hb).2.trans (h2.2 j hb hc).2⟩

theorem chain_to_pairs (results : List (List Log))
    (h : ∀ j, j + 1 < results.length →
      LogsAgree (results.getD j []) (results.getD (j + 1) [])) :
    ∀ d i, i + d < results.length →
      LogsAgree (results.getD i []) (results.getD (i + d) []) := by
  intro d
  induction d with
  | zero => intro i _; exact LogsAgree_refl _
  | succ d ih =>
    intro i hi
    exact LogsAgree_trans (ih i (by omega)) (h (i + d) (by omega))

theorem allPairsConsistent_iff (results : List (List Log)) :
    allPairsConsistent results = true ↔
      ∀ i j (hi : i < results.length) (hj : j < results.length),
        compareListsLogs (results.get ⟨i, hi⟩) (results.get ⟨j, hj⟩) = true := by
  unfold allPairsConsistent
  simp only [List.all_eq_true]
  constructor
  · intro h i j hi hj
    exact h _ (List.get_mem _ _ hi) _ (List.get_mem _ _ hj)
  · intro h a ha b hb
    obtain ⟨i, hi⟩ := List.get_of_mem ha
    obtain ⟨j, hj⟩ := List.get_of_mem hb
    rw [← hi, ← hj]
    exact h i.1 j.1 i.2 j.2

/-! ## The claims -/

/-- C1 (the code departs from the claim).  `getLogs` never reaches its range-splitting branch:
every query error, an oversized-response one included, marks the endpoint and retries the
same range.  With nodes that serve at most two blocks per query, the error of a wider query
is classified oversized-response and the two-block range `[100, 101]` is served, yet the
fetch over `[100, 107]` returns for no amount of fuel, where the claim has it return the
logs of `[100, 103]` followed by those of `[104, 107]`. -/
theorem getLogs_oversized_never_splits :
    isLogTooLargeError (some (GoError.plain "query range too large")) = true ∧
    (getLogs sizeLimitedNode 2 samplePool2 noFilter 100 101 []).map (fun r => r.1) =
      some (blockLogs 100 2, none) ∧
    ∀ fuel, getLogs sizeLimitedNode fuel samplePool2 noFilter 100 107 [] = none := by
  refine ⟨by decide, by decide, ?_⟩
  intro fuel
  apply getLogs_never_returns_on_errors sizeLimitedNode 100 107 (by decide)
  intro n client q h1 h2
  simp only [sizeLimitedNode, h1, h2]
  decide

/-- C2 (the code departs from the claim).  An error that is classified neither rate-limited
nor oversized-response is not returned by `getLogs`: the endpoint is marked, the query is
repeated on the next endpoint, and the caller gets the logs of the retry with a nil error.
Here the first query (to `http://a`) fails with `execution reverted`. -/
theorem getLogs_retries_fatal_error :
    isRateLimit (GoError.plain "execution reverted") = false ∧
    isLogTooLargeError (some (GoError.plain "execution reverted")) = false ∧
    (flakyNode.FilterLogs 0 0
      { noFilter with FromBlock := some 1, ToBlock := some 2 }).2 =
        some (GoError.plain "execution reverted") ∧
    getLogs flakyNode 2 samplePool2 noFilter 1 2 [] =
      some (([mkLog 7 0], none),
        { pool :=
            { clients :=
                [{ endpoint := "http://a", lastErr := some (GoError.plain "execution reverted"),
                   availableAt := 1 + 15 * Second },
                 mkClient "http://b"],
              counter := 0 },
          now := 2,
          calls := [Call.filterLogs 0 { noFilter with FromBlock := some 1, ToBlock := some 2 },
                    Call.filterLogs 1 { noFilter with FromBlock := some 1, ToBlock := some 2 }] }) := by
  refine ⟨by decide, by decide, by decide, by decide⟩

/-- C3 (the code departs from the claim).  `getLogs` never reads `specificClient`; its first
query goes to the endpoint the rotating selection returns.  With two healthy endpoints and
the cursor at 0, a fetch assigned endpoint 1 queries endpoint 0.  With three healthy
endpoints, `GetClients(2)` returns the endpoints 0 and 1 and leaves the cursor at 2, and the
fetch assigned endpoint 0 then queries endpoint 2. -/
theorem getLogs_ignores_specificClient :
    (getLogs sizeLimitedNode 1 samplePool2 noFilter 1 2 [1]).map (fun r => r.2.calls) =
      some [Call.filterLogs 0 { noFilter with FromBlock := some 1, ToBlock := some 2 }] ∧
    GetClients 4 samplePool3 2 =
      some (([0, 1], none), { samplePool3 with pool := { samplePool3.pool with counter := 2 } }) ∧
    (getLogs sizeLimitedNode 1 { samplePool3 with pool := { samplePool3.pool with counter := 2 } }
        noFilter 1 2 [0]).map (fun r => r.2.calls) =
      some [Call.filterLogs 2 { noFilter with FromBlock := some 1, ToBlock := some 2 }] := by
  refine ⟨by decide, by decide, by decide⟩

/-- C4.  For `k >= 2` replica results fetched without error, `GetLogs` returns the first
result with a nil error if and only if every adjacent pair of results has the same length
and, at every index, the same `TxHash` and the same `Index`; otherwise it returns no logs
and the error `Consistency error`. -/
theorem GetLogs_afterWait_consistency (results : List (List Log))
    (hk : 2 ≤ results.length) :
    (GetLogs.afterWait results none = (results.get ⟨0, by omega⟩, none) ↔
        ∀ i (h : i + 1 < results.length),
          LogsAgree (results.get ⟨i, by omega⟩) (results.get ⟨i + 1, h⟩)) ∧
    ((¬ ∀ i (h : i + 1 < results.length),
          LogsAgree (results.get ⟨i, by omega⟩) (results.get ⟨i + 1, h⟩)) →
      GetLogs.afterWait results none = ([], some (GoError.plain "Consistency error"))) := by
  have key := consistentLoop_iff results results.length 0 (by simp)
  have key2 : GetLogs.consistentLoop (results.length : Int) results results.length 0 true = true ↔
      ∀ i (h : i + 1 < results.length),
          LogsAgree (results.get ⟨i, by omega⟩) (results.get ⟨i + 1, h⟩) := by
    rw [key]
    constructor
    · intro h i hi
      have := (compareListsLogs_iff _ _).1 (h i (Nat.zero_le _) hi)
      rwa [List.getD_eq_getElem _ _ (by omega), List.getD_eq_getElem _ _ hi] at this
    · intro h i _ hi
      have := (compareListsLogs_iff _ _).2 (h i hi)
      rwa [List.getD_eq_getElem _ _ (by omega), List.getD_eq_getElem _ _ hi]
  have h0 : results.getD 0 [] = results.get ⟨0, by omega⟩ :=
    List.getD_eq_getElem _ _ (by omega)
  unfold GetLogs.afterWait
  simp only [ne_eq, not_true_eq_false, if_false, h0]
  constructor
  · rw [← key2]
    by_cases hc : GetLogs.consistentLoop (results.length : Int) results results.length 0 true = true
    · simp [hc]
    · simp [hc]
  · intro h
    rw [← key2] at h
    simp [h]

/-- C4 at the lists of the claim: `[{A,0},{B,1}]` against itself is accepted, against
`[{A,0},{B,2}]` it is rejected. -/
theorem GetLogs_afterWait_consistency_witness :
    2 ≤ [[mkLog 10 0, mkLog 11 1], [mkLog 10 0, mkLog 11 1]].length ∧
    GetLogs.afterWait [[mkLog 10 0, mkLog 11 1], [mkLog 10 0, mkLog 11 1]] none =
      ([mkLog 10 0, mkLog 11 1], none) ∧
    GetLogs.afterWait [[mkLog 10 0, mkLog 11 1], [mkLog 10 0, mkLog 11 2]] none =
      ([], some (GoError.plain "Consistency error")) := by
  refine ⟨by decide, ?_, ?_⟩
  · refine (GetLogs_afterWait_consistency _ (by decide)).1.2 ?_
    intro i h
    have hi : i = 0 := by simp at h; omega
    subst hi
    show LogsAgree [mkLog 10 0, mkLog 11 1] [mkLog 10 0, mkLog 11 1]
    exact (compareListsLogs_iff _ _).1 (by decide)
  · refine (GetLogs_afterWait_consistency _ (by decide)).2 ?_
    intro h
    have h0 : LogsAgree [mkLog 10 0, mkLog 11 1] [mkLog 10 0, mkLog 11 2] := h 0 (by decide)
    have h1 := (compareListsLogs_iff _ _).2 h0
    revert h1
    decide

/-- C5.  In a pool of `N >= 1` endpoints that are all available, with the cursor at `c < N`:
any number `m` of consecutive `GetClient` calls returns the endpoints at the positions
`c, c+1, ..., c+m-1` (mod `N`) and leaves a valid cursor; after `N` calls the cursor is back
at `c`, and the `N` positions returned are a permutation of `0, ..., N-1`, so that each
endpoint is returned exactly once.  One unit of fuel is enough for every call. -/
theorem GetClient_round_robin (fuel : Nat) (w : World)
    (hc : w.pool.counter < w.pool.clients.length)
    (hav : ∀ x ∈ w.pool.clients, (x.IsAvailable w.now).1 = true) :
    (∀ m, ∃ w1, GetClientTimes (fuel + 1) m w =
        some ((List.range m).map (fun i => (w.pool.counter + i) % w.pool.clients.length), w1) ∧
      w1.pool.counter < w1.pool.clients.length) ∧
    (∃ w1, GetClientTimes (fuel + 1) w.pool.clients.length w =
        some ((List.range w.pool.clients.length).map
          (fun i => (w.pool.counter + i) % w.pool.clients.length), w1) ∧
      w1.pool.counter = w.pool.counter) ∧
    ((List.range w.pool.clients.length).map
        (fun i => (w.pool.counter + i) % w.pool.clients.length)).Perm
      (List.range w.pool.clients.length) := by
  refine ⟨?_, ?_, rotation_perm _ _⟩
  · intro m
    obtain ⟨w1, h1, h2, h3, _, _⟩ := GetClientTimes_allAvailable fuel m w hc hav
    refine ⟨w1, h1, ?_⟩
    rw [h2, h3]
    exact Nat.mod_lt _ (by omega)
  · obtain ⟨w1, h1, h2, _, _, _⟩ :=
      GetClientTimes_allAvailable fuel w.pool.clients.length w hc hav
    refine ⟨w1, h1, ?_⟩
    rw [h2, Nat.add_mod_right]
    exact Nat.mod_eq_of_lt hc

/-- C5 at a pool of three healthy endpoints with the cursor at 1. -/
theorem GetClient_round_robin_witness :
    ∃ w1, GetClientTimes 1 3 { samplePool3 with pool := { samplePool3.pool with counter := 1 } } =
        some ([1, 2, 0], w1) ∧
      w1.pool.counter = 1 :=
  (GetClient_round_robin 0 { samplePool3 with pool := { samplePool3.pool with counter := 1 } }
    (by decide) (by decide)).2.1

/-- C6, amended.  After `MarkError(e)` at time `t`, whatever the earlier health state,
`availableAt` is `t + 15` seconds; `IsAvailable` at time `t1` returns true exactly when
`t1 > t + 15` seconds and false exactly when `t1 <= t + 15` seconds: the endpoint is
available strictly after the deadline. -/
theorem IsAvailable_after_MarkError (c : Client) (e : GoError) (t t' : Nat) :
    (((c.MarkError t (some e)).IsAvailable t').1 = true ↔ t + 15 * Second < t') ∧
    (((c.MarkError t (some e)).IsAvailable t').1 = false ↔ t' ≤ t + 15 * Second) ∧
    (c.MarkError t (some e)).availableAt = t + 15 * Second := by
  refine ⟨?_, ?_, rfl⟩
  · by_cases h : t + 15 * Second < t'
    · simp [Client.IsAvailable, Client.MarkError, h]
    · simp [Client.IsAvailable, Client.MarkError, h]
  · by_cases h : t + 15 * Second < t'
    · have h2 : ¬ t' ≤ t + 15 * Second := by omega
      simp [Client.IsAvailable, Client.MarkError, h, h2]
    · have h2 : t' ≤ t + 15 * Second := by omega
      simp [Client.IsAvailable, Client.MarkError, h, h2]

/-- C6 as stated fails at the deadline itself: marked at time 0, the endpoint is still
unavailable when the clock reads exactly 15 seconds. -/
theorem IsAvailable_at_deadline_false :
    (((mkClient "http://a").MarkError 0 (some (GoError.plain "boom"))).IsAvailable
      (0 + 15 * Second)).1 = false := by
  decide

/-- C7.  In a pool of `N` endpoints with a valid cursor, for `0 <= n <= N`, when at least `n`
endpoints are available (the clock does not move during the call): given more than `N`
units of fuel, `GetClients(n)` returns a nil error and exactly `n` endpoints that are
pairwise distinct and each available, without waiting and without any query. -/
theorem GetClients_enough (fuel : Nat) (w : World) (n : Nat)
    (hn : n ≤ w.pool.clients.length)
    (hwf : 0 < n → w.pool.counter < w.pool.clients.length)
    (hav : n ≤ (w.pool.clients.filter (fun c => (c.IsAvailable w.now).1)).length)
    (hfuel : w.pool.clients.length < fuel) :
    ∃ clients w1, GetClients fuel w (n : Int) = some ((clients, none), w1) ∧
      clients.length = n ∧ clients.Nodup ∧
      (∀ i ∈ clients, ∃ c, w.pool.clients[i]? = some c ∧ (c.IsAvailable w.now).1 = true) ∧
      w1.now = w.now ∧ w1.calls = w.calls := by
  obtain ⟨f, rfl⟩ : ∃ f, fuel = f + 1 := ⟨fuel - 1, by omega⟩
  have hav2 : n ≤ (w.pool.clients.filter (Client.available w.now)).length := hav
  have hnot : ¬ ((n : Int) > (w.pool.clients.length : Int)) := by omega
  have hawait := await_enough (n : Int) f w (by omega)
  set pool0 : ClientPool :=
    { w.pool with clients := w.pool.clients.map (fun c => (c.IsAvailable w.now).2) } with hpool0
  have hlen0 : pool0.clients.length = w.pool.clients.length := by simp [hpool0]
  have hcnt0 : pool0.counter = w.pool.counter := rfl
  have hfilter : ∀ l : List Nat,
      l.filter (pool0.availableAt w.now) = l.filter (w.pool.availableAt w.now) := by
    intro l
    apply List.filter_congr
    intro i _
    exact map_availableAt w.now w.pool i
  have hperm := rotation_perm w.pool.counter w.pool.clients.length
  have hcount : ((rotation w.pool.clients.length w.pool.counter w.pool.clients.length).filter
      (w.pool.availableAt w.now)).length =
        (w.pool.clients.filter (Client.available w.now)).length := by
    rw [← filter_range_availableAt]
    exact (hperm.filter _).length_eq
  obtain ⟨pool1, hcollect⟩ := collect_spec w.now n w.pool.clients.length pool0 [] (f + 1)
    (fun hpos => by
      unfold ClientPool.WF
      rw [hlen0, hcnt0]
      exact hwf (by simpa using hpos))
    hfuel (Nat.zero_le _)
    (by
      rw [hlen0, hcnt0, hfilter, hcount]
      simpa using hav2)
  rw [hlen0, hcnt0, hfilter] at hcollect
  simp only [List.nil_append, List.length_nil, Nat.sub_zero] at hcollect
  refine ⟨List.take n ((rotation w.pool.clients.length w.pool.counter
    w.pool.clients.length).filter (w.pool.availableAt w.now)),
    { w with pool := pool1 }, ?_, ?_, ?_, ?_, rfl, rfl⟩
  · unfold GetClients
    rw [if_neg hnot, hawait]
    simp only [hcollect]
  · rw [List.length_take, hcount]
    exact Nat.min_eq_left hav2
  · exact ((hperm.nodup_iff.2 (List.nodup_range _)).filter _).sublist (List.take_sublist _ _)
  · intro i hi
    have hmem := List.mem_of_mem_take hi
    rw [List.mem_filter] at hmem
    have hA := hmem.2
    unfold ClientPool.availableAt at hA
    cases hget : w.pool.clients[i]? with
    | none => rw [hget] at hA; exact absurd hA (by simp)
    | some c =>
      rw [hget] at hA
      exact ⟨c, rfl, hA⟩

/-- C7 at a pool of two healthy endpoints with the cursor at 1, for `n = 2`. -/
theorem GetClients_enough_witness :
    ∃ clients w1,
      GetClients 3 { samplePool2 with pool := { samplePool2.pool with counter := 1 } } (2 : Nat) =
        some ((clients, none), w1) ∧ clients.length = 2 ∧ clients.Nodup :=
  match GetClients_enough 3 { samplePool2 with pool := { samplePool2.pool with counter := 1 } } 2
      (by decide) (by decide) (by decide) (by decide) with
  | ⟨clients, w1, h1, h2, h3, _⟩ => ⟨clients, w1, h1, h2, h3⟩

/-- C8.  For `n` greater than the pool size, `GetClients(n)` returns at once (with any
fuel, zero included) no endpoints and an error, and the world is unchanged: same cursor,
same health state of every endpoint, same clock, no query issued. -/
theorem GetClients_too_many (fuel : Nat) (w : World) (numClients : Int)
    (h : numClients > (w.pool.clients.length : Int)) :
    GetClients fuel w numClients =
      some (([], some (GoError.plain
        ("numClients must be less than client pool size: " ++
          toString w.pool.clients.length))), w) := by
  unfold GetClients
  rw [if_pos h]

/-- C8 at a pool of two endpoints, for `n = 3`. -/
theorem GetClients_too_many_witness :
    (3 : Int) > ((World.mk ⟨[mkClient "http://a", mkClient "http://b"], 1⟩ 7 []).pool.clients.length : Int) ∧
    GetClients 0 (World.mk ⟨[mkClient "http://a", mkClient "http://b"], 1⟩ 7 []) 3 =
      some (([], some (GoError.plain "numClients must be less than client pool size: 2")),
        World.mk ⟨[mkClient "http://a", mkClient "http://b"], 1⟩ 7 []) :=
  ⟨by decide, GetClients_too_many 0 _ 3 (by decide)⟩

/-- C9.  Let the receipt query on the selected endpoint fail with the error `e`.  If `e` is
not classified rate-limited, `GetTransactionReceipt` returns a nil receipt and `e` itself;
the pool is the one left by the selection (no endpoint marked) and exactly one query has
been issued.  If `e` is classified rate-limited, the endpoint is marked with `e` for 15
seconds and the operation starts over from the endpoint selection in that world; whenever
it then returns, a second receipt query has been issued after the first. -/
theorem GetTransactionReceipt_on_error (node : Node) (fuel : Nat) (w : World) (txHash : Nat)
    (client : Nat) (w1 : World) (e : GoError)
    (hsel : GetClient (fuel + 1) w = some (client, w1))
    (herr : (node.TransactionReceipt w1.calls.length client txHash).2 = some e) :
    (isRateLimit e = false →
      GetTransactionReceipt node (fuel + 1) w txHash =
        some ((none, some e),
          { w1 with now := w1.now + node.latency w1.calls.length,
                    calls := w.calls ++ [Call.transactionReceipt client txHash] })) ∧
    (isRateLimit e = true →
      GetTransactionReceipt node (fuel + 1) w txHash =
        GetTransactionReceipt node fuel
          { pool := w1.pool.markError (w1.now + node.latency w1.calls.length) client (some e),
            now := w1.now + node.latency w1.calls.length,
            calls := w.calls ++ [Call.transactionReceipt client txHash] } txHash ∧
      (∀ c, w1.pool.clients[client]? = some c →
        (w1.pool.markError (w1.now + node.latency w1.calls.length) client (some e)).clients[client]? =
          some { c with lastErr := some e,
                        availableAt := w1.now + node.latency w1.calls.length + 15 * Second }) ∧
      ∀ r w2, GetTransactionReceipt node (fuel + 1) w txHash = some (r, w2) →
        ∃ client2 rest, w2.calls = w.calls ++ Call.transactionReceipt client txHash ::
          Call.transactionReceipt client2 txHash :: rest) := by
  have hc := GetClient_calls _ _ _ _ hsel
  rw [hc] at herr
  simp only [hc]
  have hstep : isRateLimit e = true →
      GetTransactionReceipt node (fuel + 1) w txHash =
        GetTransactionReceipt node fuel
          { pool := w1.pool.markError (w1.now + node.latency w.calls.length) client (some e),
            now := w1.now + node.latency w.calls.length,
            calls := w.calls ++ [Call.transactionReceipt client txHash] } txHash := by
    intro hrl
    simp only [GetTransactionReceipt, hsel, herr, hrl, if_true, World.afterCall, hc]
  refine ⟨?_, ?_⟩
  · intro hrl
    simp only [GetTransactionReceipt, hsel, herr, hrl, World.afterCall, hc, Bool.false_eq_true,
      if_false]
  · intro hrl
    refine ⟨hstep hrl, ?_, ?_⟩
    · intro c hget
      have hlt : client < w1.pool.clients.length := (List.getElem?_eq_some.1 hget).1
      simp only [ClientPool.markError, hget, List.getElem?_set_self hlt, Client.MarkError]
    · intro r w2 h
      rw [hstep hrl] at h
      obtain ⟨c2, rest, h2⟩ := GetTransactionReceipt_calls node txHash _ _ _ _ h
      refine ⟨c2, rest, ?_⟩
      rw [h2]
      simp

/-- C9 at a pool of two healthy endpoints: the first query is rate limited (endpoint 0 is
marked), the second, on endpoint 1, fails with `not found`, which is returned unmarked. -/
theorem GetTransactionReceipt_on_error_witness :
    GetTransactionReceipt flakyNode 2 samplePool2 9 =
      some ((none, some (GoError.plain "not found")),
        { pool :=
            { clients :=
                [{ endpoint := "http://a",
                   lastErr := some (GoError.httpError 429 "429 Too Many Requests"),
                   availableAt := 1 + 15 * Second },
                 mkClient "http://b"],
              counter := 0 },
          now := 2,
          calls := [Call.transactionReceipt 0 9, Call.transactionReceipt 1 9] }) := by
  have h1 := ((GetTransactionReceipt_on_error flakyNode 1 samplePool2 9 0
    { samplePool2 with pool := { samplePool2.pool with counter := 1 } }
    (GoError.httpError 429 "429 Too Many Requests") (by decide) (by decide)).2 (by decide)).1
  have h2 := (GetTransactionReceipt_on_error flakyNode 0
    { pool :=
        { clients :=
            [{ endpoint := "http://a",
               lastErr := some (GoError.httpError 429 "429 Too Many Requests"),
               availableAt := 1 + 15 * Second },
             mkClient "http://b"],
          counter := 1 },
      now := 1,
      calls := [Call.transactionReceipt 0 9] } 9 1
    { pool :=
        { clients :=
            [{ endpoint := "http://a",
               lastErr := some (GoError.httpError 429 "429 Too Many Requests"),
               availableAt := 1 + 15 * Second },
             mkClient "http://b"],
          counter := 0 },
      now := 1,
      calls := [Call.transactionReceipt 0 9] }
    (GoError.plain "not found") (by decide) (by decide)).1 (by decide)
  rw [h1]
  exact h2

/-- C10.  For every pool with a valid cursor, every filter and every `fromBlock > toBlock`,
`getLogs` returns (given enough fuel for the endpoint selection it starts with) an empty
log list and a nil error, and issues no query. -/
theorem getLogs_degenerate_range (node : Node) (w : World) (filterQuery : FilterQuery)
    (fromBlock toBlock : Nat) (specificClient : List Nat)
    (hwf : w.pool.counter < w.pool.clients.length)
    (h : fromBlock > toBlock) :
    ∃ bound, ∀ fuel, bound ≤ fuel →
      ∃ w1, getLogs node fuel w filterQuery fromBlock toBlock specificClient =
          some (([], none), w1) ∧
        w1.calls = w.calls := by
  obtain ⟨d, hd⟩ := availableAt_eventually w.now w.pool hwf
  refine ⟨d + 1, ?_⟩
  intro fuel hfuel
  obtain ⟨f, rfl⟩ : ∃ f, fuel = f + 1 := ⟨fuel - 1, by omega⟩
  obtain ⟨idx, w1, h1, _, h3, _, _⟩ := GetClient_returns d w hwf hd (f + 1) (by omega)
  refine ⟨w1, ?_, h3⟩
  simp only [getLogs, h1, h, if_true]

/-- C10 at the range `[50, 49]`. -/
theorem getLogs_degenerate_range_witness :
    ∃ bound, ∀ fuel, bound ≤ fuel →
      ∃ w1, getLogs sizeLimitedNode fuel samplePool2 noFilter 50 49 [] = some (([], none), w1) ∧
        w1.calls = samplePool2.calls :=
  getLogs_degenerate_range sizeLimitedNode samplePool2 noFilter 50 49 [] (by decide) (by decide)

/-- C11.  For every valid UTF-8 string `s` (a list of Unicode scalar values),
`ConvertType[string](s)` returns `s` and a nil error: `json.Marshal` writes the quoted and
escaped literal, `json.Unmarshal` validates it and `unquoteBytes` reads `s` back, whether
the toolchain writes a backspace and a form feed as `\b`, `\f` or as `\u0008`, `\u000c`. -/
theorem ConvertType_string_roundtrip (shortEscapes : Bool) (s : String) :
    ConvertType (jsonMarshalString shortEscapes) jsonUnmarshalString "" s = some (s, none) := by
  have hq : jsonIsSpace (Char.ofNat 34) = false := by decide
  have hscan := scan_encoded shortEscapes [] s.toList
  have hunq := unquote_loop_encoded shortEscapes s.toList
    (s.toList.flatMap (appendString.char shortEscapes)).length
    (flatMap_length_ge shortEscapes s.toList)
  simp only [ConvertType, jsonMarshalString, ne_eq, not_true_eq_false, if_false,
    jsonUnmarshalString, appendString, List.dropWhile_cons, hq, Bool.false_eq_true]
  have h34 : (Char.ofNat 34).toNat = 34 := by decide
  simp only [h34, if_true, hscan, List.all_nil, unquoteBytes, hunq]
  rfl

/-- C12.  `compareListsLogs` is reflexive, symmetric and transitive, and so the chain check
of `GetLogs` over adjacent results is the all-pairs check: for every list of results (in
particular for `k >= 2` of them) the loop accepts if and only if every pair `r[i]`, `r[j]`
compares equal, and `GetLogs` returns a nil error exactly in that case. -/
theorem chain_check_iff_all_pairs (results : List (List Log)) :
    (∀ a, compareListsLogs a a = true) ∧
    (∀ a b, compareListsLogs a b = true → compareListsLogs b a = true) ∧
    (∀ a b c, compareListsLogs a b = true → compareListsLogs b c = true →
      compareListsLogs a c = true) ∧
    (GetLogs.consistentLoop (results.length : Int) results results.length 0 true = true ↔
      ∀ i j (hi : i < results.length) (hj : j < results.length),
        compareListsLogs (results.get ⟨i, hi⟩) (results.get ⟨j, hj⟩) = true) ∧
    GetLogs.consistentLoop (results.length : Int) results results.length 0 true =
      allPairsConsistent results ∧
    ((GetLogs.afterWait results none).2 = none ↔ allPairsConsistent results = true) := by
  have hiff : GetLogs.consistentLoop (results.length : Int) results results.length 0 true = true ↔
      ∀ i j (hi : i < results.length) (hj : j < results.length),
        compareListsLogs (results.get ⟨i, hi⟩) (results.get ⟨j, hj⟩) = true := by
    rw [consistentLoop_iff results results.length 0 (by simp)]
    constructor
    · intro h i j hi hj
      have hchain : ∀ j, j + 1 < results.length →
          LogsAgree (results.getD j []) (results.getD (j + 1) []) :=
        fun j hj => (compareListsLogs_iff _ _).1 (h j (Nat.zero_le _) hj)
      have hpair : ∀ i j (hi : i < results.length) (hj : j < results.length), i ≤ j →
          LogsAgree (results.get ⟨i, hi⟩) (results.get ⟨j, hj⟩) := by
        intro i j hi hj hij
        have := chain_to_pairs results hchain (j - i) i (by omega)
        rw [List.getD_eq_getElem _ _ hi, List.getD_eq_getElem _ _ (by omega)] at this
        have hji : i + (j - i) = j := by omega
        simp only [hji] at this
        exact this
      rcases Nat.le_total i j with hij | hij
      · exact (compareListsLogs_iff _ _).2 (hpair i j hi hj hij)
      · exact (compareListsLogs_iff _ _).2 (LogsAgree_symm (hpair j i hj hi hij))
    · intro h j _ hj
      have := h j (j + 1) (by omega) hj
      rwa [List.getD_eq_getElem _ _ (by omega), List.getD_eq_getElem _ _ hj]
  refine ⟨fun a => (compareListsLogs_iff _ _).2 (LogsAgree_refl a),
    fun a b h => (compareListsLogs_iff _ _).2 (LogsAgree_symm ((compareListsLogs_iff _ _).1 h)),
    fun a b c h1 h2 => (compareListsLogs_iff _ _).2
      (LogsAgree_trans ((compareListsLogs_iff _ _).1 h1) ((compareListsLogs_iff _ _).1 h2)),
    hiff, ?_, ?_⟩
  · rw [Bool.eq_iff_iff, hiff, allPairsConsistent_iff]
  · rw [allPairsConsistent_iff, ← hiff]
    unfold GetLogs.afterWait
    by_cases hc : GetLogs.consistentLoop (results.length : Int) results results.length 0 true
        = true
    · simp [hc]
    · simp [hc]

/-- C13.  `HexToInt` undoes `DecimalToHex`: for every `int64` `n`, negative values and the
minimum `-2^63` included, `HexToInt(DecimalToHex(n))` returns `n` and a nil error. -/
theorem HexToInt_DecimalToHex (n : Int) (hlo : -(2 ^ 63) ≤ n) (hhi : n < 2 ^ 63) :
    HexToInt (DecimalToHex n) = (n, none) := by
  have h16 : (2 : Nat) ^ 64 < 16 ^ (64 + 1) := by norm_num
  by_cases hneg : n < 0
  · -- negative: the digits of `-n` after a minus sign
    obtain ⟨m, hm⟩ : ∃ m : Nat, n = -(m : Int) := ⟨n.natAbs, by omega⟩
    subst hm
    have hm1 : 0 < m := by omega
    have hm2 : m ≤ 2 ^ 63 := by omega
    have hu : ((-(m : Int)) % 2 ^ 64).toNat = 2 ^ 64 - m := by omega
    have hu1 : (2 ^ 64 - (2 ^ 64 - m)) % 2 ^ 64 = m := by omega
    have hfmt : FormatIntHex (-(m : Int)) = String.mk ('-' :: formatBits.loop 64 m []) := by
      simp only [FormatIntHex, hneg, decide_True, if_true, hu, hu1]
    have hchars := format_chars 64 m [] (by omega)
    have hx : ∀ x : Char, (x.toNat = 120 ∨ x.toNat = 88 ∨ x.toNat = 43) →
        ∀ c ∈ '-' :: formatBits.loop 64 m [], c ≠ x := by
      intro x hxv c hc
      rw [List.mem_cons] at hc
      rcases hc with rfl | hc
      · intro heq
        rw [← heq] at hxv
        revert hxv
        decide
      · rcases hchars c hc with h | ⟨d, hd, rfl⟩
        · simp at h
        · exact strconvDigit_ne d hd x (by omega)
    unfold HexToInt DecimalToHex
    rw [hfmt, hexaNumberToString_of_0x _ (hx (Char.ofNat 120) (by decide)) (hx (Char.ofNat 88) (by decide))]
    have hparse : ParseUintHex64 (formatBits.loop 64 m []) = (m, none) := by
      unfold ParseUintHex64
      rw [if_neg (format_ne_nil _ _ _), parse_format 64 m [] (by omega) (by omega)]
      rfl
    rw [ParseInt_negative _ m hparse hm2]
  · obtain ⟨m, hm⟩ : ∃ m : Nat, n = (m : Int) := ⟨n.toNat, by omega⟩
    subst hm
    have hm2 : m < 2 ^ 63 := by omega
    have hu : (((m : Int)) % 2 ^ 64).toNat = m := by omega
    have hfmt : FormatIntHex (m : Int) = String.mk (formatBits.loop 64 m []) := by
      simp only [FormatIntHex, hneg, decide_False, Bool.false_eq_true, if_false, hu]
    have hchars := format_chars 64 m [] (by omega)
    have hx : ∀ x : Char, (x.toNat = 120 ∨ x.toNat = 88 ∨ x.toNat = 43 ∨ x.toNat = 45) →
        ∀ c ∈ formatBits.loop 64 m [], c ≠ x := by
      intro x hxv c hc
      rcases hchars c hc with h | ⟨d, hd, rfl⟩
      · simp at h
      · exact strconvDigit_ne d hd x hxv
    unfold HexToInt DecimalToHex
    rw [hfmt, hexaNumberToString_of_0x _ (hx (Char.ofNat 120) (by decide))
      (hx (Char.ofNat 88) (by decide))]
    have hparse : ParseUintHex64 (formatBits.loop 64 m []) = (m, none) := by
      unfold ParseUintHex64
      rw [if_neg (format_ne_nil _ _ _), parse_format 64 m [] (by omega) (by omega)]
      rfl
    cases hl : formatBits.loop 64 m [] with
    | nil => exact absurd hl (format_ne_nil _ _ _)
    | cons c ds =>
      rw [hl] at hparse hx
      exact ParseInt_unsigned c ds m (hx (Char.ofNat 43) (by decide) c (by simp))
        (hx (Char.ofNat 45) (by decide) c (by simp)) hparse hm2

/-- C13 at the minimum `int64`, whose text is `0x-8000000000000000`. -/
theorem HexToInt_DecimalToHex_witness :
    DecimalToHex (-(2 ^ 63)) = "0x-8000000000000000" ∧
    HexToInt (DecimalToHex (-(2 ^ 63))) = (-(2 ^ 63), none) :=
  ⟨by decide, HexToInt_DecimalToHex (-(2 ^ 63)) (by norm_num) (by norm_num)⟩

end Toolkit
